import Mathlib

/-!
Verification of the container stack (HashMap → Map → Storage) of the
`xr_engine` repository, shallowly embedded from
`src/src/utils/data/hash_map.cpp`, `src/include/vr_engine/utils/data/map.h`
and `src/include/vr_engine/utils/data/storage.h`.

Machine integers (`uint64_t` keys, `size_t` values and sizes) are modelled as
`Nat`, with `% 2 ^ 64` made explicit exactly where the C++ arithmetic can wrap
(the FNV multiply, the capacity doubling, the id counter increment).
The unbounded C++ probe loops are given `capacity` fuel: the fuel can run out
only when the scan would revisit a slot, i.e. exactly when the C++ loop never
terminates; this outcome is surfaced as the error `HMError.noSlot` and proved
unreachable on well-formed states.
-/

set_option maxRecDepth 4000

namespace VrEngine

/-- A hash map entry: 64-bit key and word-sized value (`HashMap::Entry`).
The C++ `Value` union (`size_t` / pointer) is modelled as `Nat`, with the null
pointer as `0`. -/
structure Entry where
  key : Nat
  value : Nat
deriving Repr, DecidableEq

/-- `HashMap::NULL_KEY`, reserved for the empty slot. -/
def NULL_KEY : Nat := 0

/-- A zeroed entry, as produced by `memset(..., 0, ...)` and by
`Entry { .key = NULL_KEY, .value = Value(nullptr) }`. -/
def nullEntry : Entry := ⟨NULL_KEY, 0⟩

instance : Inhabited Entry := ⟨nullEntry⟩

/-- `FNV_OFFSET` from hash_map.cpp. -/
def FNV_OFFSET : Nat := 14695981039346656037

/-- `FNV_PRIME` from hash_map.cpp. -/
def FNV_PRIME : Nat := 1099511628211

/-- The FNV-1a hash of the 8 little-endian bytes of a 64-bit key
(`vre::hash` in hash_map.cpp): for each byte, xor it in, then multiply by the
prime on `uint64_t` (hence the `% 2 ^ 64`). -/
def hash (key : Nat) : Nat :=
  (List.range 8).foldl
    (fun h i => ((h ^^^ ((key / 2 ^ (8 * i)) % 256)) * FNV_PRIME) % 2 ^ 64)
    FNV_OFFSET

/-- The hash map state (`HashMap::Data`).  The `capacity` field of the C++
struct is the length of `entries`; `count` is tracked separately, exactly like
the C++ field. -/
structure HashMap where
  entries : List Entry
  count : Nat
deriving Repr, DecidableEq

/-- `m_data->capacity`: the length of the backing array. -/
def HashMap.capacity (m : HashMap) : Nat := m.entries.length

/-- `DEFAULT_CAPACITY` from hash_map.cpp. -/
def DEFAULT_CAPACITY : Nat := 2

/-- A freshly constructed `HashMap()`: `DEFAULT_CAPACITY` zeroed entries,
count 0. -/
def HashMap.emptyMap : HashMap := ⟨List.replicate DEFAULT_CAPACITY nullEntry, 0⟩

/-- Outcomes of the C++ code that do not produce a value:
* `nullKey`: the thrown `std::invalid_argument("NULL_KEY is reserved ...")`;
* `overflow`: the thrown `std::overflow_error` in `HashMap::expand`;
* `noSlot`: a probe loop that would scan past every slot without stopping,
  i.e. the C++ `while` loop never terminating (possible only on tables with
  no empty slot; proved unreachable under the invariant);
* `badIndex`: an out-of-range access into the `Map` vector or `back()` on an
  empty vector (undefined behaviour in C++; proved unreachable under the
  invariant);
* `noSuchId`: the `std::runtime_error("No such id")` thrown by
  `Storage::operator[]`. -/
inductive HMError where
  | nullKey : HMError
  | overflow : HMError
  | noSlot : HMError
  | badIndex : HMError
  | noSuchId : HMError
deriving Repr, DecidableEq

/-- `index = hash(key) & (capacity - 1)`: the home slot of a key. -/
def homeIndex (key cap : Nat) : Nat := Nat.land (hash key) (cap - 1)

/-- `index++; if (index >= capacity) index = 0;` — the probe step. -/
def nextIndex (cap i : Nat) : Nat := if i + 1 ≥ cap then 0 else i + 1

/-- The probe loop of `set_entry` (hash_map.cpp).  Returns the updated array
and whether a new entry was inserted (`true`) or an existing slot with the
same key overwritten (`false`).  `none` models fuel exhaustion, i.e. the C++
loop cycling forever on a table with no empty slot and no matching key. -/
def setEntryLoop (key value : Nat) : Nat → List Entry → Nat → Option (List Entry × Bool)
  | 0, _, _ => none
  | fuel + 1, entries, index =>
    let e := entries.getD index nullEntry
    if e.key = NULL_KEY then
      some (entries.set index ⟨key, value⟩, true)
    else if e.key = key then
      some (entries.set index ⟨key, value⟩, false)
    else
      setEntryLoop key value fuel entries (nextIndex entries.length index)

/-- `set_entry` (hash_map.cpp): rejects the null key, then probes from the
home slot.  The `Bool` tells whether a new entry was added, i.e. whether the
C++ would have incremented `*count`. -/
def set_entry (entries : List Entry) (key value : Nat) :
    Except HMError (List Entry × Bool) :=
  if key = NULL_KEY then .error .nullKey
  else
    match setEntryLoop key value entries.length entries
        (homeIndex key entries.length) with
    | some r => .ok r
    | none => .error .noSlot

/-- The re-insertion loop of `HashMap::expand`: every non-null entry of the
old array is `set_entry`-ed into the new one (without touching `count`). -/
def expandReinsert : List Entry → List Entry → Except HMError (List Entry)
  | newEntries, [] => .ok newEntries
  | newEntries, e :: rest =>
    if e.key ≠ NULL_KEY then
      match set_entry newEntries e.key e.value with
      | .ok (ne, _) => expandReinsert ne rest
      | .error err => .error err
    else
      expandReinsert newEntries rest

/-- `HashMap::expand`: double the capacity (on `size_t`, hence `% 2 ^ 64`),
throw on wrap-around, then re-insert every entry into the zeroed new array. -/
def HashMap.expand (m : HashMap) : Except HMError HashMap :=
  let new_capacity := m.capacity * 2 % 2 ^ 64
  if new_capacity < m.capacity then .error .overflow
  else
    match expandReinsert (List.replicate new_capacity nullEntry) m.entries with
    | .ok ne => .ok ⟨ne, m.count⟩
    | .error err => .error err

/-- `HashMap::set`: expand when `count >= capacity / 2` (checked before the
probe, hence also on overwrites), then `set_entry` with `&count`.
`count + 1` is the `size_t` increment; it cannot wrap here because
`count < capacity ≤ 2 ^ 64` whenever the insertion branch is reached. -/
def HashMap.set (m : HashMap) (key value : Nat) : Except HMError HashMap :=
  match (if m.count ≥ m.capacity / 2 then m.expand else .ok m) with
  | .error err => .error err
  | .ok m₁ =>
    match set_entry m₁.entries key value with
    | .ok (es, inserted) =>
        .ok ⟨es, if inserted then m₁.count + 1 else m₁.count⟩
    | .error err => .error err

/-- `HashMap::set` again, additionally recording the state the map is left in
when the C++ throws: `expand` either throws `overflow` before mutating
anything or completes fully, and `set_entry` throws `invalid_argument` before
touching the array — so after a caught exception the table holds its original
bindings and count, but its capacity may already have doubled.
`HashMap.set` is the success projection of this function (`setE_ok_iff`). -/
def HashMap.setE (m : HashMap) (key value : Nat) :
    Except (HMError × HashMap) HashMap :=
  match (if m.count ≥ m.capacity / 2 then m.expand else .ok m) with
  | .error err => .error (err, m)
  | .ok m₁ =>
    match set_entry m₁.entries key value with
    | .ok (es, inserted) =>
        .ok ⟨es, if inserted then m₁.count + 1 else m₁.count⟩
    | .error err => .error (err, m₁)

/-- The probe loop of `HashMap::get`, returning the *slot index* holding the
key (`some (some i)`), `some none` when an empty slot is reached first, and
`none` on fuel exhaustion (the C++ loop cycling forever). -/
def getLoop (key : Nat) : Nat → List Entry → Nat → Option (Option Nat)
  | 0, _, _ => none
  | fuel + 1, entries, index =>
    let e := entries.getD index nullEntry
    if e.key = NULL_KEY then some none
    else if e.key = key then some (some index)
    else getLoop key fuel entries (nextIndex entries.length index)

/-- `HashMap::get`, returning the index of the slot whose `value` field the
C++ `Optional<Value*>` points at. -/
def HashMap.getIdx (m : HashMap) (key : Nat) : Except HMError (Option Nat) :=
  if key = NULL_KEY then .ok none
  else
    match getLoop key m.capacity m.entries (homeIndex key m.capacity) with
    | some r => .ok r
    | none => .error .noSlot

/-- `HashMap::get`, returning the pointed-at value. -/
def HashMap.get (m : HashMap) (key : Nat) : Except HMError (Option Nat) :=
  (m.getIdx key).map (fun o => o.map (fun i => (m.entries.getD i nullEntry).value))

/-- The scan loop of `HashMap::remove`: walk from the home slot to the first
empty slot, recording the slot holding the key (if seen) and, from that point
on, counting the scanned slots (`invalidated_block_size`). -/
def removeScan (key : Nat) :
    Nat → List Entry → Nat → Option Nat → Nat → Option (Option Nat × Nat)
  | 0, _, _, _, _ => none
  | fuel + 1, entries, index, deleted, blk =>
    let e := entries.getD index nullEntry
    if e.key = NULL_KEY then some (deleted, blk)
    else
      let deleted' := if key = e.key then some index else deleted
      let blk' := if deleted'.isSome then blk + 1 else blk
      removeScan key fuel entries (nextIndex entries.length index) deleted' blk'

/-- The invalidation loop of `HashMap::remove`: copy `n` entries starting at
slot `j` (wrapping) into a buffer, setting each copied slot to the null
entry. -/
def collectAndNull : Nat → List Entry → Nat → List Entry × List Entry
  | 0, entries, _ => ([], entries)
  | n + 1, entries, j =>
    let e := entries.getD j nullEntry
    let rest := collectAndNull n (entries.set j nullEntry) (nextIndex entries.length j)
    (e :: rest.1, rest.2)

/-- The re-insertion loop at the end of `HashMap::remove`: `set_entry` each
buffered entry back (without the `count` pointer). -/
def reinsertAll : List Entry → List Entry → Except HMError (List Entry)
  | entries, [] => .ok entries
  | entries, e :: rest =>
    match set_entry entries e.key e.value with
    | .ok (es, _) => reinsertAll es rest
    | .error err => .error err

/-- `HashMap::remove`.  `count - 1` is the `size_t` decrement; on states where
a slot is found while `count = 0` the C++ would wrap to `2 ^ 64 - 1`, but under
the invariant a found slot forces `count ≥ 1`, so truncated subtraction agrees
with the source. -/
def HashMap.remove (m : HashMap) (key : Nat) : Except HMError HashMap :=
  match removeScan key m.capacity m.entries (homeIndex key m.capacity) none 0 with
  | none => .error .noSlot
  | some (none, _) => .ok m
  | some (some deleted_index, blk) =>
    let invalidated :=
      if blk > 1 then
        collectAndNull (blk - 1) m.entries ((deleted_index + 1) % m.capacity)
      else
        ([], m.entries)
    let es₁ := invalidated.2.set deleted_index nullEntry
    match reinsertAll es₁ invalidated.1 with
    | .ok es₂ => .ok ⟨es₂, m.count - 1⟩
    | .error err => .error err

/-- `HashMap::clear`: when `count > 0`, null every slot and zero the count. -/
def HashMap.clear (m : HashMap) : HashMap :=
  if m.count > 0 then ⟨List.replicate m.capacity nullEntry, 0⟩ else m

/-- `HashMap::count`. -/
def HashMap.countM (m : HashMap) : Nat := m.count

/-- `HashMap::operator[]`: `get`, and if absent `set(key, nullptr)` followed by
a fresh `get`.  The returned `Nat` is the slot index that the returned
`Value &` reference designates. -/
def HashMap.opIndex (m : HashMap) (key : Nat) : Except HMError (HashMap × Nat) :=
  match m.getIdx key with
  | .error err => .error err
  | .ok (some i) => .ok (m, i)
  | .ok none =>
    match m.set key 0 with
    | .error err => .error err
    | .ok m' =>
      match m'.getIdx key with
      | .error err => .error err
      | .ok (some i) => .ok (m', i)
      | .ok none => .error .badIndex

/-- The statement `map[key] = v`: `operator[]`, then an assignment through the
returned reference (writes the `value` field of the designated slot). -/
def HashMap.indexAssign (m : HashMap) (key v : Nat) : Except HMError HashMap :=
  match m.opIndex key with
  | .error err => .error err
  | .ok r =>
    .ok ⟨r.1.entries.set r.2 ⟨(r.1.entries.getD r.2 nullEntry).key, v⟩, r.1.count⟩

/-- The sequence of entries produced by `HashMap::Iterator` (array order,
skipping null keys). -/
def HashMap.toList (m : HashMap) : List Entry :=
  m.entries.filter (fun e => e.key ≠ NULL_KEY)

/-- `HashMap::exists`. -/
def HashMap.existsKey (m : HashMap) (key : Nat) : Except HMError Bool :=
  (m.get key).map Option.isSome

/-- Runs a sequence of `set` operations (used to state the round-trip
property). -/
def HashMap.runSets : HashMap → List (Nat × Nat) → Except HMError HashMap
  | m, [] => .ok m
  | m, (k, v) :: ops =>
    match m.set k v with
    | .error err => .error err
    | .ok m' => m'.runSets ops

/-! ### Cyclic-distance toolkit for the linear-probe analysis -/

/-- The key stored at slot `i`. -/
def keyAt (es : List Entry) (i : Nat) : Nat := (es.getD i nullEntry).key

/-- Number of probe steps from slot `a` to slot `b` on a table of `n` slots. -/
def pdist (n a b : Nat) : Nat := (b + n - a) % n

/-! ### The hash map invariant -/

/-- All non-null slots carry pairwise distinct keys. -/
def distinctKeys (es : List Entry) : Prop :=
  ∀ i, i < es.length → ∀ j, j < es.length →
    keyAt es i ≠ NULL_KEY → keyAt es i = keyAt es j → i = j

/-- The linear-probing reachability invariant: every occupied slot is reachable
from its key's home slot through occupied slots only. -/
def probeInv (es : List Entry) : Prop :=
  ∀ p, p < es.length → keyAt es p ≠ NULL_KEY →
    ∀ t, t < pdist es.length (homeIndex (keyAt es p) es.length) p →
      keyAt es ((homeIndex (keyAt es p) es.length + t) % es.length) ≠ NULL_KEY

/-- The number of occupied slots. -/
def occCount (es : List Entry) : Nat :=
  (es.filter (fun e => e.key ≠ NULL_KEY)).length

/-- Well-formedness of a hash map state; holds for every reachable state. -/
structure HashMap.Inv (m : HashMap) : Prop where
  cap2 : 2 ≤ m.capacity
  count_occ : m.count = occCount m.entries
  count_half : m.count ≤ m.capacity / 2
  distinct : distinctKeys m.entries
  probe : probeInv m.entries

/-- The key `k` is bound to value `v` at some slot. -/
def hasB (es : List Entry) (k v : Nat) : Prop :=
  k ≠ NULL_KEY ∧ ∃ i, i < es.length ∧ es.getD i nullEntry = ⟨k, v⟩

/-- The key `k` occupies some slot. -/
def hasK (es : List Entry) (k : Nat) : Prop :=
  k ≠ NULL_KEY ∧ ∃ i, i < es.length ∧ keyAt es i = k

/-- The reachable hash map states: everything obtainable from a fresh map by
the public mutating interface. -/
inductive HashMap.Reachable : HashMap → Prop where
  | empty : HashMap.Reachable HashMap.emptyMap
  | set {m m' : HashMap} {k v : Nat} :
      HashMap.Reachable m → m.set k v = .ok m' → HashMap.Reachable m'
  | remove {m m' : HashMap} {k : Nat} :
      HashMap.Reachable m → m.remove k = .ok m' → HashMap.Reachable m'
  | opIdx {m m' : HashMap} {k i : Nat} :
      HashMap.Reachable m → m.opIndex k = .ok (m', i) → HashMap.Reachable m'
  | idxAssign {m m' : HashMap} {k v : Nat} :
      HashMap.Reachable m → m.indexAssign k v = .ok m' → HashMap.Reachable m'
  | clear {m : HashMap} : HashMap.Reachable m → HashMap.Reachable m.clear

/-! ### Further `get`/`set` helpers -/

instance {ε α : Type} [DecidableEq ε] [DecidableEq α] : DecidableEq (Except ε α) :=
  fun a b =>
    match a, b with
    | .ok x, .ok y =>
      if h : x = y then .isTrue (h ▸ rfl)
      else .isFalse (fun hc => h (Except.ok.inj hc))
    | .error x, .error y =>
      if h : x = y then .isTrue (h ▸ rfl)
      else .isFalse (fun hc => h (Except.error.inj hc))
    | .ok _, .error _ => .isFalse (fun hc => Except.noConfusion hc)
    | .error _, .ok _ => .isFalse (fun hc => Except.noConfusion hc)

/-! ### The `Map` layer (map.h): a hash table of indices plus a dense vector -/

/-- `vre::Map<T>` (map.h): `m_hash_map` maps each key to an index into the
dense `m_storage` vector; each storage entry is a `(key, value)` pair
(`Map::Entry` holds `m_key` and `m_value`). -/
structure Map (α : Type) where
  hash_map : HashMap
  storage : List (Nat × α)

/-- A default-constructed `Map`. -/
def Map.emptyMap {α : Type} : Map α := ⟨HashMap.emptyMap, []⟩

/-- `Map::count`. -/
def Map.count {α : Type} (m : Map α) : Nat := m.hash_map.count

/-- `Map::get`: look the key up in the hash map, then read the storage vector
at the stored index.  `.error .badIndex` models the out-of-range
`m_storage[...]` access (impossible under the invariant). -/
def Map.get {α : Type} (m : Map α) (key : Nat) : Except HMError (Option α) :=
  match m.hash_map.get key with
  | .error e => .error e
  | .ok none => .ok none
  | .ok (some idx) =>
    match m.storage.get? idx with
    | some e => .ok (some e.2)
    | none => .error .badIndex

/-- `Map::set`: overwrite the stored value in place when the key exists,
otherwise append to the vector and register `key -> index` in the hash map.
The C++ `push_back` runs *before* the `m_hash_map.set` that can throw, so on
that error path the returned state keeps the freshly appended pair while the
hash map holds no binding for it (`.error (_, m')` is the state the object is
left in when the exception is caught). -/
def Map.set {α : Type} (m : Map α) (key : Nat) (value : α) :
    Except (HMError × Map α) (Map α) :=
  match m.hash_map.get key with
  | .error e => .error (e, m)
  | .ok (some idx) =>
    match m.storage.get? idx with
    | some e => .ok ⟨m.hash_map, m.storage.set idx (e.1, value)⟩
    | none => .error (.badIndex, m)
  | .ok none =>
    match m.hash_map.setE key m.storage.length with
    | .ok hm => .ok ⟨hm, m.storage ++ [(key, value)]⟩
    | .error (err, hm₁) => .error (err, ⟨hm₁, m.storage ++ [(key, value)]⟩)

/-- `Map::remove`: move the last vector element into the removed slot, pop the
vector, remove the key from the hash map, and when an element was actually
moved re-register its key at the new index.  `.error (.badIndex, _)` models
`back()` on an empty vector (impossible under the invariant); the
re-registration runs after the vector was already compacted, so its error
(possible only when the moved key is 0, i.e. in a state left by an earlier
caught `set(0, ·)`) carries the compacted state. -/
def Map.remove {α : Type} (m : Map α) (key : Nat) :
    Except (HMError × Map α) (Map α) :=
  match m.hash_map.get key with
  | .error e => .error (e, m)
  | .ok none => .ok m
  | .ok (some index) =>
    match m.storage.getLast? with
    | none => .error (.badIndex, m)
    | some lastE =>
      match m.hash_map.remove key with
      | .error e => .error (e, m)
      | .ok hm₁ =>
        if index < ((m.storage.set index lastE).dropLast).length then
          match hm₁.setE ((((m.storage.set index lastE).dropLast).getD index lastE).1)
              index with
          | .ok hm₂ => .ok ⟨hm₂, (m.storage.set index lastE).dropLast⟩
          | .error (e, hm₂) =>
              .error (e, ⟨hm₂, (m.storage.set index lastE).dropLast⟩)
        else
          .ok ⟨hm₁, (m.storage.set index lastE).dropLast⟩

/-- `Map::operator[]`: return the index of the existing slot, or append a
default-constructed value and register it.  As in `Map.set`, the C++
`push_back` precedes the throwing `m_hash_map.set`, and the error carries the
state the object is left in. -/
def Map.opIndex {α : Type} [Inhabited α] (m : Map α) (key : Nat) :
    Except (HMError × Map α) (Map α × Nat) :=
  match m.hash_map.get key with
  | .error e => .error (e, m)
  | .ok (some idx) => .ok (m, idx)
  | .ok none =>
    match m.hash_map.setE key m.storage.length with
    | .ok hm => .ok (⟨hm, m.storage ++ [(key, (default : α))]⟩, m.storage.length)
    | .error (err, hm₁) =>
        .error (err, ⟨hm₁, m.storage ++ [(key, (default : α))]⟩)

/-- `Map::clear`. -/
def Map.clear {α : Type} (m : Map α) : Map α := ⟨m.hash_map.clear, []⟩

/-- The sequence produced by `Map::Iterator`: the dense vector in order. -/
def Map.toList {α : Type} (m : Map α) : List (Nat × α) := m.storage

/-- Runs a sequence of `Map::set` operations. -/
def Map.runSets {α : Type} : Map α → List (Nat × α) → Except HMError (Map α)
  | m, [] => .ok m
  | m, (k, v) :: ops =>
    match m.set k v with
    | .error err => .error err.1
    | .ok m' => Map.runSets m' ops

/-- Well-formedness of a `Map` state. -/
structure Map.Inv {α : Type} (m : Map α) : Prop where
  hm : m.hash_map.Inv
  count_len : m.hash_map.count = m.storage.length
  to_storage : ∀ k i, hasB m.hash_map.entries k i →
    ∃ kv, m.storage.get? i = some kv ∧ kv.1 = k
  to_hm : ∀ i kv, m.storage.get? i = some kv →
    kv.1 ≠ NULL_KEY ∧ hasB m.hash_map.entries kv.1 i

/-- The `Map` states reachable through operations that complete without
throwing.  States left behind by a caught exception (`Map.set`/`Map.opIndex`
returning `.error (_, m')`) are not included: `claim_C3_cex` shows the
count/length invariant fails on such a state. -/
inductive Map.Reachable {α : Type} : Map α → Prop where
  | empty : Map.Reachable Map.emptyMap
  | set {m m' : Map α} {k : Nat} {v : α} :
      Map.Reachable m → m.set k v = .ok m' → Map.Reachable m'
  | remove {m m' : Map α} {k : Nat} :
      Map.Reachable m → m.remove k = .ok m' → Map.Reachable m'
  | opIdx [Inhabited α] {m m' : Map α} {k i : Nat} :
      Map.Reachable m → m.opIndex k = .ok (m', i) → Map.Reachable m'
  | clear {m : Map α} : Map.Reachable m → Map.Reachable m.clear

/-! ### The `Storage` layer (storage.h): a `Map` plus an id counter -/

/-- `Storage<T>::NULL_ID`. -/
def NULL_ID : Nat := 0

/-- `vre::Storage<T>` (storage.h): `m_id_counter` and `m_map`. -/
structure Storage (α : Type) where
  id_counter : Nat
  map : Map α

/-- A default-constructed `Storage` (`m_id_counter = 0`, empty map). -/
def Storage.emptyStorage {α : Type} : Storage α := ⟨0, Map.emptyMap⟩

/-- `Storage::push`: increment the counter (a `uint64_t`, hence `% 2 ^ 64`),
insert `(counter, value)` into the map, return the new id. -/
def Storage.push {α : Type} (s : Storage α) (value : α) :
    Except HMError (Storage α × Nat) :=
  match s.map.set ((s.id_counter + 1) % 2 ^ 64) value with
  | .ok m' => .ok (⟨(s.id_counter + 1) % 2 ^ 64, m'⟩, (s.id_counter + 1) % 2 ^ 64)
  | .error e => .error e.1

/-- `Storage::get`. -/
def Storage.get {α : Type} (s : Storage α) (id : Nat) :
    Except HMError (Option α) :=
  s.map.get id

/-- `Storage::operator[]`: `get`, then throw `"No such id"` when the result is
null, otherwise return the stored value.  It never inserts and never mutates
the storage. -/
def Storage.opIndex {α : Type} (s : Storage α) (id : Nat) : Except HMError α :=
  match s.map.get id with
  | .error e => .error e
  | .ok none => .error .noSuchId
  | .ok (some v) => .ok v

/-- `Storage::remove`: delegate to `Map::remove` (the counter is untouched). -/
def Storage.remove {α : Type} (s : Storage α) (id : Nat) :
    Except HMError (Storage α) :=
  match s.map.remove id with
  | .ok m' => .ok ⟨s.id_counter, m'⟩
  | .error e => .error e.1

/-- `Storage::clear`: delegate to `Map::clear` (the counter is untouched). -/
def Storage.clear {α : Type} (s : Storage α) : Storage α :=
  ⟨s.id_counter, s.map.clear⟩

/-- `Storage::count`. -/
def Storage.countS {α : Type} (s : Storage α) : Nat := s.map.count

/-- An operation on a `Storage`: `push` a value or `remove` an id. -/
inductive SOp (α : Type) where
  | push (value : α)
  | remove (id : Nat)

/-- Runs a sequence of operations, collecting the ids returned by the
`push` calls in order. -/
def Storage.runOps {α : Type} :
    Storage α → List (SOp α) → Except HMError (Storage α × List Nat)
  | s, [] => .ok (s, [])
  | s, SOp.push v :: ops =>
    match s.push v with
    | .error e => .error e
    | .ok (s', id) =>
      match Storage.runOps s' ops with
      | .error e => .error e
      | .ok (s'', ids) => .ok (s'', id :: ids)
  | s, SOp.remove id :: ops =>
    match s.remove id with
    | .error e => .error e
    | .ok s' => Storage.runOps s' ops

/-- The number of `push` operations in a sequence. -/
def pushCount {α : Type} : List (SOp α) → Nat
  | [] => 0
  | SOp.push _ :: ops => pushCount ops + 1
  | SOp.remove _ :: ops => pushCount ops

/-! ### The round-trip property of `set`/`get` -/

/-- The last value a sequence of `(key, value)` set operations assigns to a
key, if any. -/
def lastSet : List (Nat × Nat) → Nat → Option Nat
  | [], _ => none
  | (k₀, v₀) :: ops, k =>
    match lastSet ops k with
    | some w => some w
    | none => if k₀ = k then some v₀ else none

/-! ### Concrete states used to exercise the theorems -/

/-- Extracts the state of a successful `HashMap` operation. -/
def hmOk (r : Except HMError HashMap) : HashMap :=
  match r with
  | .ok m => m
  | .error _ => HashMap.emptyMap

/-- Extracts the state of a successful `Map` operation. -/
def mapOk {α ε : Type} (r : Except ε (Map α)) : Map α :=
  match r with
  | .ok m => m
  | .error _ => Map.emptyMap

/-- The 21 key/value pairs of the spec's concrete scenario. -/
def pairs21 : List (Nat × Nat) :=
  [(1, 4), (2, 2), (3, 27), (4, 22), (5, 999), (6, 1), (7, 55), (8, 0),
   (9, 100000), (10, 28), (11, 888), (12, 6432), (13, 1), (14, 999988),
   (15, 4), (16, 19), (17, 32), (18, 22), (19, 11), (20, 75), (21, 99999999)]

/-- The table after inserting the 21 scenario pairs into a fresh map. -/
def hm21 : HashMap := hmOk (HashMap.runSets HashMap.emptyMap pairs21)

/-- `hm21` after `remove(5)`. -/
def hm20 : HashMap := hmOk (hm21.remove 5)

/-- `hm20` after `map[5] = 777`. -/
def hm21b : HashMap := hmOk (hm20.indexAssign 5 777)

/-- A fresh map after `set(1, 10)`. -/
def W1 : HashMap := hmOk (HashMap.emptyMap.set 1 10)

/-- `W1` after `set(2, 20)`. -/
def W2 : HashMap := hmOk (W1.set 2 20)

/-- `W1` after the overwrite `set(1, 20)`. -/
def M5b : HashMap := hmOk (W1.set 1 20)

/-- A set sequence with a duplicate key. -/
def ops2 : List (Nat × Nat) := [(1, 10), (2, 20), (1, 30), (3, 5)]

/-- The table built by `ops2`. -/
def hmC2 : HashMap := hmOk (HashMap.runSets HashMap.emptyMap ops2)

/-- A garbage `HashMap` state at the largest power-of-two capacity. -/
def garbage63 : HashMap := ⟨List.replicate (2 ^ 63) ⟨1, 0⟩, 2 ^ 62⟩

/-- The state a fresh `Map` is left in when `set(0, 7)` throws: the pair was
already pushed into the vector, the hash map never registered it. -/
def Mbad : Map Nat := ⟨HashMap.emptyMap, [(0, 7)]⟩

/-- A fresh `Map` after `set(1, 100)`. -/
def MW1 : Map Nat := mapOk (Map.emptyMap.set 1 100)

/-- `MW1` after `set(2, 200)`. -/
def MW : Map Nat := mapOk (MW1.set 2 200)

/-- Distinct-key pairs, deliberately not in key order. -/
def ps8 : List (Nat × Nat) := [(3, 30), (1, 10), (2, 20)]

def M8a : Map Nat := mapOk (Map.emptyMap.set 3 30)

def M8b : Map Nat := mapOk (M8a.set 1 10)

/-- The map built by inserting `ps8` in order. -/
def M8 : Map Nat := mapOk (M8b.set 2 20)

/-- `M8` after `remove(1)`. -/
def M8r : Map Nat := mapOk (M8.remove 1)

/-- A storage holding one pushed value. -/
def S9 : Storage Nat :=
  match Storage.emptyStorage.push 42 with
  | .ok (s, _) => s
  | .error _ => Storage.emptyStorage

/-- A push/remove/push sequence. -/
def ops7 : List (SOp Nat) := [SOp.push 5, SOp.push 7, SOp.remove 1, SOp.push 9]

def run7 : Except HMError (Storage Nat × List Nat) :=
  Storage.runOps Storage.emptyStorage ops7

def S7 : Storage Nat :=
  match run7 with
  | .ok (s, _) => s
  | .error _ => Storage.emptyStorage

def ids7 : List Nat :=
  match run7 with
  | .ok (_, ids) => ids
  | .error _ => []

theorem setE_ok_iff {m m' : HashMap} {k v : Nat} :
    m.setE k v = .ok m' ↔ m.set k v = .ok m' := by
  unfold HashMap.setE HashMap.set
  match (if m.count ≥ m.capacity / 2 then m.expand else .ok m) with
  | .error err => simp
  | .ok m₁ =>
    match hy : set_entry m₁.entries k v with
    | .ok (es, ins) => simp [hy]
    | .error err => simp [hy]

theorem mod_two_cases {x n : Nat} (h : x < 2 * n) :
    x % n = if x < n then x else x - n := by
  split
  · exact Nat.mod_eq_of_lt (by assumption)
  · rw [Nat.mod_eq_sub_mod (by omega)]
    exact Nat.mod_eq_of_lt (by omega)

theorem pdist_lt {n a b : Nat} (h : 0 < n) : pdist n a b < n :=
  Nat.mod_lt _ h

theorem pdist_self {n a : Nat} (ha : a ≤ n) : pdist n a a = 0 := by
  unfold pdist
  have : a + n - a = n := by omega
  rw [this, Nat.mod_self]

theorem pdist_eq_zero {n a b : Nat} (ha : a < n) (hb : b < n)
    (h : pdist n a b = 0) : a = b := by
  unfold pdist at h
  obtain ⟨k, hk⟩ := Nat.dvd_of_mod_eq_zero h
  match k, hk with
  | 0, hk => omega
  | 1, hk => omega
  | k + 2, hk =>
    have h3 : n * (k + 2) = n * k + 2 * n := by ring
    have h4 : 0 ≤ n * k := Nat.zero_le _
    omega

theorem pdist_add {n a t : Nat} (ha : a < n) (ht : t < n) :
    pdist n a ((a + t) % n) = t := by
  have hx := mod_two_cases (x := a + t) (n := n) (by omega)
  unfold pdist
  split at hx
  · rw [hx]
    have h1 : a + t + n - a = t + n := by omega
    rw [h1, Nat.add_mod_right]
    exact Nat.mod_eq_of_lt ht
  · rw [hx]
    have h1 : a + t - n + n - a = t := by omega
    rw [h1]
    exact Nat.mod_eq_of_lt ht

theorem slot_decomp {n a b : Nat} (ha : a < n) (hb : b < n) :
    (a + pdist n a b) % n = b := by
  unfold pdist
  rw [Nat.add_mod_mod]
  have h1 : a + (b + n - a) = b + n := by omega
  rw [h1, Nat.add_mod_right]
  exact Nat.mod_eq_of_lt hb

theorem pdist_next {n a b : Nat} (ha : a < n) (hb : b < n) (hab : a ≠ b) :
    pdist n ((a + 1) % n) b + 1 = pdist n a b := by
  unfold pdist
  have h1 : (a + 1) % n = if a + 1 < n then a + 1 else 0 := by
    rcases Nat.lt_or_ge (a + 1) n with h | h
    · simp [Nat.mod_eq_of_lt h, h]
    · have h2 : a + 1 = n := by omega
      simp [h2, Nat.mod_self]
  rw [h1]
  split
  · have e1 := mod_two_cases (x := b + n - (a + 1)) (n := n) (by omega)
    have e2 := mod_two_cases (x := b + n - a) (n := n) (by omega)
    split at e1 <;> split at e2 <;> omega
  · have e1 := mod_two_cases (x := b + n - 0) (n := n) (by omega)
    have e2 := mod_two_cases (x := b + n - a) (n := n) (by omega)
    split at e1 <;> split at e2 <;> omega

theorem pdist_pos {n a b : Nat} (ha : a < n) (hb : b < n) (hab : a ≠ b) :
    0 < pdist n a b := by
  rcases Nat.eq_zero_or_pos (pdist n a b) with h | h
  · exact absurd (pdist_eq_zero ha hb h) hab
  · exact h

theorem pdist_sub {n a b : Nat} (ha : a < n) (hb : b < n) :
    ∀ t, t ≤ pdist n a b → pdist n ((a + t) % n) b = pdist n a b - t := by
  intro t
  induction t with
  | zero => intro _; rw [Nat.add_zero, Nat.mod_eq_of_lt ha]; omega
  | succ t ih =>
    intro ht
    have h1 := ih (by omega)
    have h2 : (a + t) % n ≠ b := by
      intro heq
      rw [heq, pdist_self (by omega)] at h1
      omega
    have h3 := pdist_next (Nat.mod_lt _ (by omega)) hb h2
    rw [h1] at h3
    rw [Nat.mod_add_mod] at h3
    rw [← Nat.add_assoc]
    omega

theorem nextIndex_eq {n i : Nat} (h : i < n) : nextIndex n i = (i + 1) % n := by
  unfold nextIndex
  split
  · have h2 : i + 1 = n := by omega
    rw [h2, Nat.mod_self]
  · rw [Nat.mod_eq_of_lt (by omega)]

theorem homeIndex_lt {k cap : Nat} (h : 0 < cap) : homeIndex k cap < cap := by
  unfold homeIndex
  have h1 : Nat.land (hash k) (cap - 1) ≤ cap - 1 := Nat.and_le_right
  omega

/-! ### Pointwise update lemmas -/

theorem keyAt_set_self {es : List Entry} {j : Nat} {e : Entry} (hj : j < es.length) :
    keyAt (es.set j e) j = e.key := by
  simp [keyAt, List.getD_eq_getElem, List.getElem_set, hj]

theorem getD_set_self {es : List Entry} {j : Nat} {e : Entry} (hj : j < es.length) :
    (es.set j e).getD j nullEntry = e := by
  have h1 : j < (es.set j e).length := by simpa using hj
  rw [List.getD_eq_getElem _ _ h1]
  simp [List.getElem_set]

theorem getD_set_ne {es : List Entry} {i j : Nat} {e : Entry} (h : j ≠ i) :
    (es.set j e).getD i nullEntry = es.getD i nullEntry := by
  simp [List.getD, List.getElem?_set_ne h]

theorem keyAt_set_ne {es : List Entry} {i j : Nat} {e : Entry} (h : j ≠ i) :
    keyAt (es.set j e) i = keyAt es i := by
  unfold keyAt
  rw [getD_set_ne h]

theorem occCount_le_length (es : List Entry) : occCount es ≤ es.length :=
  List.length_filter_le _ _

theorem occCount_cons (a : Entry) (tl : List Entry) :
    occCount (a :: tl) = (if a.key ≠ NULL_KEY then 1 else 0) + occCount tl := by
  unfold occCount
  rw [List.filter_cons]
  by_cases h : a.key = NULL_KEY <;> simp [h] <;> omega

theorem occCount_set (es : List Entry) :
    ∀ j, j < es.length → ∀ e : Entry,
      occCount (es.set j e) + (if keyAt es j ≠ NULL_KEY then 1 else 0) =
        occCount es + (if e.key ≠ NULL_KEY then 1 else 0) := by
  induction es with
  | nil => intro j hj; simp at hj
  | cons a tl ih =>
    intro j hj e
    match j with
    | 0 =>
      show occCount (e :: tl) + _ = _
      rw [occCount_cons, occCount_cons]
      have h0 : keyAt (a :: tl) 0 = a.key := rfl
      rw [h0]
      omega
    | j + 1 =>
      have hj' : j < tl.length := by simpa using hj
      have ihj := ih j hj' e
      show occCount (a :: tl.set j e) + _ = _
      rw [occCount_cons, occCount_cons]
      have hk : keyAt (a :: tl) (j + 1) = keyAt tl j := rfl
      rw [hk]
      omega

theorem exists_empty_slot {es : List Entry} (h : occCount es < es.length) :
    ∃ j, j < es.length ∧ keyAt es j = NULL_KEY := by
  by_contra hc
  push_neg at hc
  have hall : ∀ a ∈ es, a.key ≠ NULL_KEY := by
    intro a ha
    obtain ⟨⟨i, hi⟩, rfl⟩ := List.mem_iff_get.mp ha
    have := hc i hi
    simpa [keyAt, List.getD_eq_getElem, hi] using this
  have : es.filter (fun e => e.key ≠ NULL_KEY) = es :=
    List.filter_eq_self.mpr (fun a ha => by simpa using hall a ha)
  unfold occCount at h
  rw [this] at h
  omega

/-! ### Probe-loop walk and stop lemmas -/

theorem getLoop_walk {es : List Entry} {k : Nat} :
    ∀ d idx fuel, idx < es.length → d < fuel →
      (∀ t, t < d → keyAt es ((idx + t) % es.length) ≠ NULL_KEY ∧
                    keyAt es ((idx + t) % es.length) ≠ k) →
      getLoop k fuel es idx = getLoop k (fuel - d) es ((idx + d) % es.length) := by
  intro d
  induction d with
  | zero =>
    intro idx fuel hidx _ _
    rw [Nat.add_zero, Nat.mod_eq_of_lt hidx, Nat.sub_zero]
  | succ d ih =>
    intro idx fuel hidx hf hcond
    obtain ⟨f, rfl⟩ : ∃ f, fuel = f + 1 := ⟨fuel - 1, by omega⟩
    have h0 := hcond 0 (by omega)
    rw [Nat.add_zero, Nat.mod_eq_of_lt hidx] at h0
    simp only [keyAt] at h0
    have step : getLoop k (f + 1) es idx = getLoop k f es (nextIndex es.length idx) := by
      simp only [getLoop]
      rw [if_neg h0.1, if_neg h0.2]
    rw [step, nextIndex_eq hidx]
    have harith : ∀ t, ((idx + 1) % es.length + t) % es.length =
        (idx + (t + 1)) % es.length := by
      intro t
      rw [Nat.mod_add_mod]
      congr 1
      omega
    have := ih ((idx + 1) % es.length) f (Nat.mod_lt _ (by omega)) (by omega)
      (fun t ht => by rw [harith t]; exact hcond (t + 1) (by omega))
    rw [this, harith d]
    congr 1
    omega

theorem getLoop_stop_empty {es : List Entry} {k j fuel : Nat}
    (hj : keyAt es j = NULL_KEY) (hf : 0 < fuel) :
    getLoop k fuel es j = some none := by
  obtain ⟨f, rfl⟩ : ∃ f, fuel = f + 1 := ⟨fuel - 1, by omega⟩
  simp only [getLoop, keyAt] at hj ⊢
  rw [if_pos hj]

theorem getLoop_stop_found {es : List Entry} {k j fuel : Nat}
    (hj : keyAt es j = k) (hk : k ≠ NULL_KEY) (hf : 0 < fuel) :
    getLoop k fuel es j = some (some j) := by
  obtain ⟨f, rfl⟩ : ∃ f, fuel = f + 1 := ⟨fuel - 1, by omega⟩
  simp only [getLoop, keyAt] at hj ⊢
  rw [if_neg (by rw [hj]; exact hk), if_pos hj]

theorem setEntryLoop_walk {es : List Entry} {k v : Nat} :
    ∀ d idx fuel, idx < es.length → d < fuel →
      (∀ t, t < d → keyAt es ((idx + t) % es.length) ≠ NULL_KEY ∧
                    keyAt es ((idx + t) % es.length) ≠ k) →
      setEntryLoop k v fuel es idx =
        setEntryLoop k v (fuel - d) es ((idx + d) % es.length) := by
  intro d
  induction d with
  | zero =>
    intro idx fuel hidx _ _
    rw [Nat.add_zero, Nat.mod_eq_of_lt hidx, Nat.sub_zero]
  | succ d ih =>
    intro idx fuel hidx hf hcond
    obtain ⟨f, rfl⟩ : ∃ f, fuel = f + 1 := ⟨fuel - 1, by omega⟩
    have h0 := hcond 0 (by omega)
    rw [Nat.add_zero, Nat.mod_eq_of_lt hidx] at h0
    simp only [keyAt] at h0
    have step : setEntryLoop k v (f + 1) es idx =
        setEntryLoop k v f es (nextIndex es.length idx) := by
      simp only [setEntryLoop]
      rw [if_neg h0.1, if_neg h0.2]
    rw [step, nextIndex_eq hidx]
    have harith : ∀ t, ((idx + 1) % es.length + t) % es.length =
        (idx + (t + 1)) % es.length := by
      intro t
      rw [Nat.mod_add_mod]
      congr 1
      omega
    have := ih ((idx + 1) % es.length) f (Nat.mod_lt _ (by omega)) (by omega)
      (fun t ht => by rw [harith t]; exact hcond (t + 1) (by omega))
    rw [this, harith d]
    congr 1
    omega

theorem setEntryLoop_stop_empty {es : List Entry} {k v j fuel : Nat}
    (hj : keyAt es j = NULL_KEY) (hf : 0 < fuel) :
    setEntryLoop k v fuel es j = some (es.set j ⟨k, v⟩, true) := by
  obtain ⟨f, rfl⟩ : ∃ f, fuel = f + 1 := ⟨fuel - 1, by omega⟩
  simp only [setEntryLoop, keyAt] at hj ⊢
  rw [if_pos hj]

theorem setEntryLoop_stop_found {es : List Entry} {k v j fuel : Nat}
    (hj : keyAt es j = k) (hk : k ≠ NULL_KEY) (hf : 0 < fuel) :
    setEntryLoop k v fuel es j = some (es.set j ⟨k, v⟩, false) := by
  obtain ⟨f, rfl⟩ : ∃ f, fuel = f + 1 := ⟨fuel - 1, by omega⟩
  simp only [setEntryLoop, keyAt] at hj ⊢
  rw [if_neg (by rw [hj]; exact hk), if_pos hj]

/-! ### Probing characterised under the invariant -/

theorem path_no_key {es : List Entry} {k p : Nat}
    (hdk : distinctKeys es) (hp : p < es.length) (hkey : keyAt es p = k)
    (hk : k ≠ NULL_KEY) :
    ∀ t, t < pdist es.length (homeIndex k es.length) p →
      keyAt es ((homeIndex k es.length + t) % es.length) ≠ k := by
  intro t ht heq
  have hn : 0 < es.length := by omega
  have hhome : homeIndex k es.length < es.length := homeIndex_lt hn
  have hs : (homeIndex k es.length + t) % es.length < es.length := Nat.mod_lt _ hn
  have hsp : (homeIndex k es.length + t) % es.length = p :=
    hdk _ hs _ hp (by rw [heq]; exact hk) (by rw [heq, hkey])
  have ht2 : t < es.length := by
    have := pdist_lt (n := es.length) (a := homeIndex k es.length) (b := p) hn
    omega
  have := pdist_add hhome ht2
  rw [hsp] at this
  omega

theorem getLoop_found_all {es : List Entry} {k p : Nat}
    (hdk : distinctKeys es) (hpi : probeInv es) (hp : p < es.length)
    (hkey : keyAt es p = k) (hk : k ≠ NULL_KEY) :
    getLoop k es.length es (homeIndex k es.length) = some (some p) := by
  have hn : 0 < es.length := by omega
  have hhome : homeIndex k es.length < es.length := homeIndex_lt hn
  have hd : pdist es.length (homeIndex k es.length) p < es.length := pdist_lt hn
  have hocc := hpi p hp (by rw [hkey]; exact hk)
  rw [hkey] at hocc
  have hnok := path_no_key hdk hp hkey hk
  rw [getLoop_walk _ _ _ hhome hd (fun t ht => ⟨hocc t ht, hnok t ht⟩)]
  rw [slot_decomp hhome hp]
  exact getLoop_stop_found hkey hk (by omega)

theorem getLoop_absent_all {es : List Entry} {k : Nat}
    (hnok : ∀ i, i < es.length → keyAt es i ≠ k)
    (hempty : occCount es < es.length) :
    getLoop k es.length es (homeIndex k es.length) = some none := by
  obtain ⟨j, hj, hjkey⟩ := exists_empty_slot hempty
  have hn : 0 < es.length := by omega
  have hhome : homeIndex k es.length < es.length := homeIndex_lt hn
  have hex : ∃ t, keyAt es ((homeIndex k es.length + t) % es.length) = NULL_KEY :=
    ⟨pdist es.length (homeIndex k es.length) j, by rw [slot_decomp hhome hj]; exact hjkey⟩
  have hdlt : Nat.find hex < es.length := by
    have h1 : Nat.find hex ≤ pdist es.length (homeIndex k es.length) j :=
      Nat.find_le (by rw [slot_decomp hhome hj]; exact hjkey)
    have h2 := pdist_lt (n := es.length) (a := homeIndex k es.length) (b := j) hn
    omega
  rw [getLoop_walk (Nat.find hex) _ _ hhome hdlt (fun t ht =>
    ⟨Nat.find_min hex ht, hnok _ (Nat.mod_lt _ hn)⟩)]
  exact getLoop_stop_empty (Nat.find_spec hex) (by omega)

theorem set_entry_found {es : List Entry} {k v p : Nat}
    (hdk : distinctKeys es) (hpi : probeInv es) (hp : p < es.length)
    (hkey : keyAt es p = k) (hk : k ≠ NULL_KEY) :
    set_entry es k v = .ok (es.set p ⟨k, v⟩, false) := by
  unfold set_entry
  rw [if_neg hk]
  have hn : 0 < es.length := by omega
  have hhome : homeIndex k es.length < es.length := homeIndex_lt hn
  have hd : pdist es.length (homeIndex k es.length) p < es.length := pdist_lt hn
  have hocc := hpi p hp (by rw [hkey]; exact hk)
  rw [hkey] at hocc
  have hnok := path_no_key hdk hp hkey hk
  rw [setEntryLoop_walk _ _ _ hhome hd (fun t ht => ⟨hocc t ht, hnok t ht⟩)]
  rw [slot_decomp hhome hp]
  rw [setEntryLoop_stop_found hkey hk (by omega)]

theorem set_entry_insert {es : List Entry} {k v : Nat}
    (hnok : ∀ i, i < es.length → keyAt es i ≠ k) (hk : k ≠ NULL_KEY)
    (hempty : occCount es < es.length) :
    ∃ j, j < es.length ∧ keyAt es j = NULL_KEY ∧
      (∀ t, t < pdist es.length (homeIndex k es.length) j →
        keyAt es ((homeIndex k es.length + t) % es.length) ≠ NULL_KEY) ∧
      set_entry es k v = .ok (es.set j ⟨k, v⟩, true) := by
  obtain ⟨j₀, hj₀, hjkey₀⟩ := exists_empty_slot hempty
  have hn : 0 < es.length := by omega
  have hhome : homeIndex k es.length < es.length := homeIndex_lt hn
  have hex : ∃ t, keyAt es ((homeIndex k es.length + t) % es.length) = NULL_KEY :=
    ⟨pdist es.length (homeIndex k es.length) j₀, by rw [slot_decomp hhome hj₀]; exact hjkey₀⟩
  have hdlt : Nat.find hex < es.length := by
    have h1 : Nat.find hex ≤ pdist es.length (homeIndex k es.length) j₀ :=
      Nat.find_le (by rw [slot_decomp hhome hj₀]; exact hjkey₀)
    have h2 := pdist_lt (n := es.length) (a := homeIndex k es.length) (b := j₀) hn
    omega
  refine ⟨(homeIndex k es.length + Nat.find hex) % es.length, Nat.mod_lt _ hn,
    Nat.find_spec hex, ?_, ?_⟩
  · intro t ht
    rw [pdist_add hhome hdlt] at ht
    exact Nat.find_min hex ht
  · unfold set_entry
    rw [if_neg hk]
    rw [setEntryLoop_walk (Nat.find hex) _ _ hhome hdlt (fun t ht =>
      ⟨Nat.find_min hex ht, hnok _ (Nat.mod_lt _ hn)⟩)]
    rw [setEntryLoop_stop_empty (Nat.find_spec hex) (by omega)]

theorem set_entry_total {es : List Entry} {k v : Nat} (hk : k ≠ NULL_KEY)
    (hempty : occCount es < es.length) :
    ∃ j ins, j < es.length ∧ set_entry es k v = .ok (es.set j ⟨k, v⟩, ins) := by
  obtain ⟨j₀, hj₀, hjkey₀⟩ := exists_empty_slot hempty
  have hn : 0 < es.length := by omega
  have hhome : homeIndex k es.length < es.length := homeIndex_lt hn
  have hex : ∃ t, keyAt es ((homeIndex k es.length + t) % es.length) = NULL_KEY ∨
      keyAt es ((homeIndex k es.length + t) % es.length) = k :=
    ⟨pdist es.length (homeIndex k es.length) j₀,
      Or.inl (by rw [slot_decomp hhome hj₀]; exact hjkey₀)⟩
  have hdlt : Nat.find hex < es.length := by
    have h1 : Nat.find hex ≤ pdist es.length (homeIndex k es.length) j₀ :=
      Nat.find_le (Or.inl (by rw [slot_decomp hhome hj₀]; exact hjkey₀))
    have h2 := pdist_lt (n := es.length) (a := homeIndex k es.length) (b := j₀) hn
    omega
  have hwalk := @setEntryLoop_walk es k v
    (Nat.find hex) _ es.length hhome hdlt (fun t ht => by
      have := Nat.find_min hex ht
      push_neg at this
      exact this)
  unfold set_entry
  rw [if_neg hk, hwalk]
  rcases Nat.find_spec hex with hstop | hstop
  · rw [setEntryLoop_stop_empty hstop (by omega)]
    exact ⟨_, _, Nat.mod_lt _ hn, rfl⟩
  · rw [setEntryLoop_stop_found hstop hk (by omega)]
    exact ⟨_, _, Nat.mod_lt _ hn, rfl⟩

/-! ### Invariant preservation for single-slot writes -/

theorem distinct_keys_eq {es es' : List Entry} (hlen : es'.length = es.length)
    (hkeys : ∀ i, i < es.length → keyAt es' i = keyAt es i)
    (h : distinctKeys es) : distinctKeys es' := by
  intro i hi j hj h1 h2
  rw [hlen] at hi hj
  rw [hkeys i hi] at h1
  rw [hkeys i hi, hkeys j hj] at h2
  exact h i hi j hj h1 h2

theorem probeInv_keys_eq {es es' : List Entry} (hlen : es'.length = es.length)
    (hkeys : ∀ i, i < es.length → keyAt es' i = keyAt es i)
    (h : probeInv es) : probeInv es' := by
  intro p hp hocc t ht
  rw [hlen] at hp ht ⊢
  rw [hkeys p hp] at hocc ht ⊢
  have hn : 0 < es.length := by omega
  rw [hkeys _ (Nat.mod_lt _ hn)]
  exact h p hp hocc t ht

theorem distinct_set_insert {es : List Entry} {j k v : Nat}
    (hdk : distinctKeys es) (hj : j < es.length) (hk : k ≠ NULL_KEY)
    (habs : ∀ i, i < es.length → keyAt es i ≠ k) :
    distinctKeys (es.set j ⟨k, v⟩) := by
  intro i hi i' hi' h1 h2
  rw [List.length_set] at hi hi'
  by_cases e1 : i = j <;> by_cases e2 : i' = j
  · omega
  · subst e1
    rw [keyAt_set_self hj] at h1 h2
    rw [keyAt_set_ne (by omega)] at h2
    exact absurd h2.symm (habs i' hi')
  · subst e2
    rw [keyAt_set_ne (by omega)] at h1 h2
    rw [keyAt_set_self hj] at h2
    exact absurd h2 (habs i hi)
  · rw [keyAt_set_ne (by omega)] at h1 h2
    rw [keyAt_set_ne (by omega)] at h2
    exact hdk i hi i' hi' h1 h2

theorem probe_set_insert {es : List Entry} {j k v : Nat}
    (hpi : probeInv es) (hj : j < es.length) (hj0 : keyAt es j = NULL_KEY)
    (hk : k ≠ NULL_KEY)
    (hpath : ∀ t, t < pdist es.length (homeIndex k es.length) j →
      keyAt es ((homeIndex k es.length + t) % es.length) ≠ NULL_KEY) :
    probeInv (es.set j ⟨k, v⟩) := by
  have hn : 0 < es.length := by omega
  have hmono : ∀ s, s < es.length → keyAt es s ≠ NULL_KEY →
      keyAt (es.set j ⟨k, v⟩) s ≠ NULL_KEY := by
    intro s hs hocc
    by_cases e : s = j
    · subst e
      rw [keyAt_set_self hj]
      exact hk
    · rw [keyAt_set_ne (by omega)]
      exact hocc
  intro p hp hocc t ht
  rw [List.length_set] at hp ht ⊢
  by_cases e : p = j
  · subst e
    rw [keyAt_set_self hj] at hocc ht ⊢
    exact hmono _ (Nat.mod_lt _ hn) (hpath t ht)
  · have hpkey : keyAt (es.set j ⟨k, v⟩) p = keyAt es p := keyAt_set_ne (Ne.symm e)
    rw [hpkey] at hocc ht ⊢
    exact hmono _ (Nat.mod_lt _ hn) (hpi p hp hocc t ht)

theorem hasB_set_insert {es : List Entry} {j k v : Nat}
    (hj : j < es.length) (hj0 : keyAt es j = NULL_KEY) (hk : k ≠ NULL_KEY) :
    ∀ kx vx, hasB (es.set j ⟨k, v⟩) kx vx ↔
      (kx = k ∧ vx = v) ∨ hasB es kx vx := by
  intro kx vx
  constructor
  · rintro ⟨hkx, i, hi, hget⟩
    rw [List.length_set] at hi
    by_cases e : i = j
    · subst e
      rw [getD_set_self hj] at hget
      left
      exact ⟨(congrArg Entry.key hget).symm, (congrArg Entry.value hget).symm⟩
    · right
      rw [getD_set_ne (by omega)] at hget
      exact ⟨hkx, i, hi, hget⟩
  · rintro (⟨rfl, rfl⟩ | ⟨hkx, i, hi, hget⟩)
    · exact ⟨hk, j, by simpa using hj, getD_set_self hj⟩
    · refine ⟨hkx, i, by simpa using hi, ?_⟩
      have hij : i ≠ j := by
        intro e
        subst e
        rw [show keyAt es i = kx from by rw [keyAt, hget]] at hj0
        exact hkx hj0
      rw [getD_set_ne (Ne.symm hij)]
      exact hget

theorem hasB_set_overwrite {es : List Entry} {p k v : Nat}
    (hdk : distinctKeys es) (hp : p < es.length)
    (hkey : keyAt es p = k) (hk : k ≠ NULL_KEY) :
    ∀ kx vx, hasB (es.set p ⟨k, v⟩) kx vx ↔
      (kx = k ∧ vx = v) ∨ (kx ≠ k ∧ hasB es kx vx) := by
  intro kx vx
  constructor
  · rintro ⟨hkx, i, hi, hget⟩
    rw [List.length_set] at hi
    by_cases e : i = p
    · subst e
      rw [getD_set_self hp] at hget
      left
      exact ⟨(congrArg Entry.key hget).symm, (congrArg Entry.value hget).symm⟩
    · right
      rw [getD_set_ne (by omega)] at hget
      have hkxi : keyAt es i = kx := by rw [keyAt, hget]
      refine ⟨?_, hkx, i, hi, hget⟩
      intro hcontra
      subst hcontra
      exact e (hdk i hi p hp (by rw [hkxi]; exact hkx) (by rw [hkxi, hkey]))
  · rintro (⟨rfl, rfl⟩ | ⟨hne, hkx, i, hi, hget⟩)
    · exact ⟨hk, p, by simpa using hp, getD_set_self hp⟩
    · refine ⟨hkx, i, by simpa using hi, ?_⟩
      have hip : i ≠ p := by
        intro e
        subst e
        rw [show keyAt es i = kx from by rw [keyAt, hget]] at hkey
        exact hne hkey
      rw [getD_set_ne (Ne.symm hip)]
      exact hget

/-! ### Membership conversions and fresh-array facts -/

theorem hasB_mem {es : List Entry} {k v : Nat} :
    hasB es k v ↔ k ≠ NULL_KEY ∧ Entry.mk k v ∈ es := by
  unfold hasB
  constructor
  · rintro ⟨hk, i, hi, hget⟩
    rw [List.getD_eq_getElem _ _ hi] at hget
    exact ⟨hk, hget ▸ List.getElem_mem hi⟩
  · rintro ⟨hk, hmem⟩
    obtain ⟨⟨i, hi⟩, hget⟩ := List.mem_iff_get.mp hmem
    exact ⟨hk, i, hi, by rw [List.getD_eq_getElem _ _ hi]; exact hget⟩

theorem hasK_iff_hasB {es : List Entry} {k : Nat} :
    hasK es k ↔ ∃ v, hasB es k v := by
  constructor
  · rintro ⟨hk, i, hi, hkey⟩
    exact ⟨(es.getD i nullEntry).value, hk, i, hi, by
      rw [← hkey]
      rfl⟩
  · rintro ⟨v, hk, i, hi, hget⟩
    exact ⟨hk, i, hi, by rw [keyAt, hget]⟩

theorem keyAt_replicate_null {c i : Nat} :
    keyAt (List.replicate c nullEntry) i = NULL_KEY := by
  unfold keyAt
  rcases Nat.lt_or_ge i c with h | h
  · rw [List.getD_eq_getElem _ _ (by simpa using h)]
    simp only [List.getElem_replicate]
    rfl
  · rw [List.getD_eq_default _ _ (by simpa using h)]
    rfl

theorem occCount_replicate_null {c : Nat} :
    occCount (List.replicate c nullEntry) = 0 := by
  induction c with
  | zero => rfl
  | succ c ih =>
    rw [List.replicate_succ, occCount_cons, ih]
    simp [nullEntry, NULL_KEY]

theorem hasB_replicate_null {c k v : Nat} :
    ¬ hasB (List.replicate c nullEntry) k v := by
  rintro ⟨hk, i, hi, hget⟩
  have h1 : keyAt (List.replicate c nullEntry) i = NULL_KEY := keyAt_replicate_null
  rw [keyAt, hget] at h1
  exact hk h1

theorem distinct_replicate_null {c : Nat} :
    distinctKeys (List.replicate c nullEntry) := by
  intro i hi j hj h1 _
  exact absurd keyAt_replicate_null h1

theorem probe_replicate_null {c : Nat} :
    probeInv (List.replicate c nullEntry) := by
  intro p hp hocc
  exact absurd keyAt_replicate_null hocc

theorem distinct_filter_pairwise {es : List Entry} (hdk : distinctKeys es) :
    (es.filter (fun e => e.key ≠ NULL_KEY)).Pairwise (fun a b => a.key ≠ b.key) := by
  have hpw : es.Pairwise (fun a b => a.key ≠ NULL_KEY → b.key ≠ NULL_KEY → a.key ≠ b.key) := by
    rw [List.pairwise_iff_getElem]
    intro i j hi hj hij ha hb hab
    have h1 : keyAt es i = es[i].key := by rw [keyAt, List.getD_eq_getElem _ _ hi]
    have h2 : keyAt es j = es[j].key := by rw [keyAt, List.getD_eq_getElem _ _ hj]
    have := hdk i hi j hj (by rw [h1]; exact ha) (by rw [h1, h2]; exact hab)
    omega
  have hsub := hpw.sublist (es.filter_sublist (p := fun e => e.key ≠ NULL_KEY))
  refine hsub.imp_of_mem ?_
  intro a b ha hb h
  exact h (by simpa using List.of_mem_filter ha) (by simpa using List.of_mem_filter hb)

/-! ### The re-insertion master lemma -/

theorem reinsertAll_spec :
    ∀ (buf es : List Entry),
      distinctKeys es → probeInv es →
      (∀ e ∈ buf, e.key ≠ NULL_KEY) →
      buf.Pairwise (fun a b => a.key ≠ b.key) →
      (∀ e ∈ buf, ∀ i, i < es.length → keyAt es i ≠ e.key) →
      occCount es + buf.length ≤ es.length →
      ∃ es₂, reinsertAll es buf = .ok es₂ ∧
        es₂.length = es.length ∧ distinctKeys es₂ ∧ probeInv es₂ ∧
        occCount es₂ = occCount es + buf.length ∧
        (∀ k v, hasB es₂ k v ↔ (hasB es k v ∨ Entry.mk k v ∈ buf)) := by
  intro buf
  induction buf with
  | nil =>
    intro es hdk hpi _ _ _ _
    exact ⟨es, rfl, rfl, hdk, hpi, by simp, fun k v => by simp⟩
  | cons e rest ih =>
    intro es hdk hpi hk0 hpw habs hroom
    have hek : e.key ≠ NULL_KEY := hk0 e (List.mem_cons_self e rest)
    have habse : ∀ i, i < es.length → keyAt es i ≠ e.key :=
      habs e (List.mem_cons_self e rest)
    have hlen : rest.length + 1 = (e :: rest).length := by simp
    have hocclt : occCount es < es.length := by
      have := hroom
      simp only [List.length_cons] at this
      omega
    obtain ⟨j, hj, hj0, hpath, hse⟩ := set_entry_insert habse hek hocclt
    have hpwrest := List.pairwise_cons.mp hpw
    have hlen₁ : (es.set j ⟨e.key, e.value⟩).length = es.length := by simp
    have hocc₁ : occCount (es.set j ⟨e.key, e.value⟩) = occCount es + 1 := by
      have h := occCount_set es j hj ⟨e.key, e.value⟩
      rw [if_neg (by simpa using hj0), if_pos (by simpa using hek)] at h
      omega
    have hdk₁ : distinctKeys (es.set j ⟨e.key, e.value⟩) :=
      distinct_set_insert hdk hj hek habse
    have hpi₁ : probeInv (es.set j ⟨e.key, e.value⟩) :=
      probe_set_insert hpi hj hj0 hek hpath
    have habs₁ : ∀ x ∈ rest, ∀ i, i < (es.set j ⟨e.key, e.value⟩).length →
        keyAt (es.set j ⟨e.key, e.value⟩) i ≠ x.key := by
      intro x hx i hi
      rw [hlen₁] at hi
      by_cases hij : i = j
      · subst hij
        rw [keyAt_set_self hj]
        exact hpwrest.1 x hx
      · rw [keyAt_set_ne (Ne.symm hij)]
        exact habs x (List.mem_cons_of_mem e hx) i hi
    have hroom₁ : occCount (es.set j ⟨e.key, e.value⟩) + rest.length ≤
        (es.set j ⟨e.key, e.value⟩).length := by
      rw [hocc₁, hlen₁]
      simp only [List.length_cons] at hroom
      omega
    obtain ⟨es₂, heq₂, hlen₂, hdk₂, hpi₂, hocc₂, hbind₂⟩ :=
      ih (es.set j ⟨e.key, e.value⟩) hdk₁ hpi₁
        (fun x hx => hk0 x (List.mem_cons_of_mem e hx)) hpwrest.2 habs₁ hroom₁
    refine ⟨es₂, ?_, by rw [hlen₂, hlen₁], hdk₂, hpi₂, ?_, ?_⟩
    · show reinsertAll es (e :: rest) = .ok es₂
      unfold reinsertAll
      rw [hse]
      exact heq₂
    · rw [hocc₂, hocc₁]
      simp only [List.length_cons]
      omega
    · intro k v
      rw [hbind₂ k v, hasB_set_insert hj hj0 hek k v]
      simp only [List.mem_cons]
      constructor
      · rintro ((⟨rfl, rfl⟩ | hb) | hr)
        · exact Or.inr (Or.inl rfl)
        · exact Or.inl hb
        · exact Or.inr (Or.inr hr)
      · rintro (hb | (heq | hr))
        · exact Or.inl (Or.inr hb)
        · left
          left
          rw [← heq]
          exact ⟨rfl, rfl⟩
        · exact Or.inr hr

/-! ### `expand` characterised -/

theorem expandReinsert_eq :
    ∀ (old new : List Entry),
      expandReinsert new old =
        reinsertAll new (old.filter (fun e => e.key ≠ NULL_KEY)) := by
  intro old
  induction old with
  | nil => intro new; rfl
  | cons e rest ih =>
    intro new
    by_cases h : e.key = NULL_KEY
    · have hfe : (e :: rest).filter (fun e => e.key ≠ NULL_KEY) =
          rest.filter (fun e => e.key ≠ NULL_KEY) := by
        rw [List.filter_cons, if_neg (by simpa using h)]
      rw [hfe]
      unfold expandReinsert
      rw [if_neg (by simpa using h)]
      exact ih new
    · have hfe : (e :: rest).filter (fun e => e.key ≠ NULL_KEY) =
          e :: rest.filter (fun e => e.key ≠ NULL_KEY) := by
        rw [List.filter_cons, if_pos (by simpa using h)]
      rw [hfe]
      unfold expandReinsert reinsertAll
      rw [if_pos (by simpa using h)]
      cases set_entry new e.key e.value with
      | error err => rfl
      | ok r => exact ih r.1

theorem filter_length_occCount (es : List Entry) :
    (es.filter (fun e => e.key ≠ NULL_KEY)).length = occCount es := rfl

theorem expand_ok_inv {m m₁ : HashMap}
    (hdk : distinctKeys m.entries) (hpi : probeInv m.entries)
    (h : m.expand = .ok m₁) :
    m₁.capacity = 2 * m.capacity ∧ m₁.count = m.count ∧
    m.capacity * 2 < 2 ^ 64 ∧
    distinctKeys m₁.entries ∧ probeInv m₁.entries ∧
    occCount m₁.entries = occCount m.entries ∧
    (∀ kx vx, hasB m₁.entries kx vx ↔ hasB m.entries kx vx) := by
  unfold HashMap.expand at h
  by_cases hwrap : m.capacity * 2 % 2 ^ 64 < m.capacity
  · rw [if_pos hwrap] at h
    exact absurd h (by simp)
  · rw [if_neg hwrap] at h
    have hlt : m.capacity * 2 < 2 ^ 64 := by
      rcases Nat.lt_or_ge m.capacity (2 ^ 64) with hc | hc
      · have h2 := mod_two_cases (x := m.capacity * 2) (n := 2 ^ 64) (by omega)
        split at h2 <;> omega
      · have h2 : m.capacity * 2 % 2 ^ 64 < 2 ^ 64 := Nat.mod_lt _ (by norm_num)
        omega
    have hmodeq : m.capacity * 2 % 2 ^ 64 = m.capacity * 2 := Nat.mod_eq_of_lt hlt
    rw [hmodeq] at h
    -- apply the master lemma to the zeroed new array
    have hbuf0 : ∀ e ∈ m.entries.filter (fun e => e.key ≠ NULL_KEY),
        e.key ≠ NULL_KEY := by
      intro e he
      simpa using List.of_mem_filter he
    have habs : ∀ e ∈ m.entries.filter (fun e => e.key ≠ NULL_KEY),
        ∀ i, i < (List.replicate (m.capacity * 2) nullEntry).length →
          keyAt (List.replicate (m.capacity * 2) nullEntry) i ≠ e.key := by
      intro e he i _
      rw [keyAt_replicate_null]
      exact fun hc => (hbuf0 e he) hc.symm
    have hroom : occCount (List.replicate (m.capacity * 2) nullEntry) +
        (m.entries.filter (fun e => e.key ≠ NULL_KEY)).length ≤
        (List.replicate (m.capacity * 2) nullEntry).length := by
      rw [occCount_replicate_null, filter_length_occCount]
      have h1 := occCount_le_length m.entries
      simp only [List.length_replicate]
      unfold HashMap.capacity
      omega
    obtain ⟨es₂, heq₂, hlen₂, hdk₂, hpi₂, hocc₂, hbind₂⟩ :=
      reinsertAll_spec (m.entries.filter (fun e => e.key ≠ NULL_KEY))
        (List.replicate (m.capacity * 2) nullEntry)
        distinct_replicate_null probe_replicate_null hbuf0
        (distinct_filter_pairwise hdk) habs hroom
    rw [expandReinsert_eq, heq₂] at h
    have hm₁ : m₁ = ⟨es₂, m.count⟩ := by
      cases h
      rfl
    subst hm₁
    refine ⟨?_, rfl, hlt, hdk₂, hpi₂, ?_, ?_⟩
    · show es₂.length = 2 * m.capacity
      rw [hlen₂]
      simp [Nat.mul_comm]
    · rw [hocc₂, occCount_replicate_null, filter_length_occCount]
      omega
    · intro kx vx
      show hasB es₂ kx vx ↔ _
      rw [hbind₂ kx vx]
      constructor
      · rintro (hb | hmem)
        · exact absurd hb hasB_replicate_null
        · have hk : kx ≠ NULL_KEY := by
            have := hbuf0 _ hmem
            simpa using this
          exact hasB_mem.mpr ⟨hk, (List.mem_filter.mp hmem).1⟩
      · intro hb
        obtain ⟨hk, hmem⟩ := hasB_mem.mp hb
        exact Or.inr (List.mem_filter.mpr ⟨hmem, by simpa using hk⟩)

theorem expand_total {m : HashMap}
    (hdk : distinctKeys m.entries) (hpi : probeInv m.entries)
    (hlt : m.capacity * 2 < 2 ^ 64) :
    ∃ m₁, m.expand = .ok m₁ := by
  unfold HashMap.expand
  have hmodeq : m.capacity * 2 % 2 ^ 64 = m.capacity * 2 := Nat.mod_eq_of_lt hlt
  rw [if_neg (by omega)]
  have hbuf0 : ∀ e ∈ m.entries.filter (fun e => e.key ≠ NULL_KEY),
      e.key ≠ NULL_KEY := by
    intro e he
    simpa using List.of_mem_filter he
  have habs : ∀ e ∈ m.entries.filter (fun e => e.key ≠ NULL_KEY),
      ∀ i, i < (List.replicate (m.capacity * 2 % 2 ^ 64) nullEntry).length →
        keyAt (List.replicate (m.capacity * 2 % 2 ^ 64) nullEntry) i ≠ e.key := by
    intro e he i _
    rw [keyAt_replicate_null]
    exact fun hc => (hbuf0 e he) hc.symm
  have hroom : occCount (List.replicate (m.capacity * 2 % 2 ^ 64) nullEntry) +
      (m.entries.filter (fun e => e.key ≠ NULL_KEY)).length ≤
      (List.replicate (m.capacity * 2 % 2 ^ 64) nullEntry).length := by
    rw [occCount_replicate_null, filter_length_occCount]
    have h1 := occCount_le_length m.entries
    simp only [List.length_replicate]
    rw [hmodeq]
    unfold HashMap.capacity
    omega
  obtain ⟨es₂, heq₂, _, _, _, _, _⟩ :=
    reinsertAll_spec (m.entries.filter (fun e => e.key ≠ NULL_KEY))
      (List.replicate (m.capacity * 2 % 2 ^ 64) nullEntry)
      distinct_replicate_null probe_replicate_null hbuf0
      (distinct_filter_pairwise hdk) habs hroom
  rw [expandReinsert_eq, heq₂]
  exact ⟨_, rfl⟩

/-! ### `get` under the invariant -/

theorem get_null (m : HashMap) : m.get NULL_KEY = .ok none := rfl

theorem getIdx_found {m : HashMap} (hI : m.Inv) {p k : Nat}
    (hp : p < m.entries.length) (hkey : keyAt m.entries p = k)
    (hk : k ≠ NULL_KEY) :
    m.getIdx k = .ok (some p) := by
  unfold HashMap.getIdx
  rw [if_neg hk]
  rw [show m.capacity = m.entries.length from rfl]
  rw [getLoop_found_all hI.distinct hI.probe hp hkey hk]

theorem getIdx_absent {m : HashMap} (hI : m.Inv) {k : Nat} (hk : k ≠ NULL_KEY)
    (habs : ∀ i, i < m.entries.length → keyAt m.entries i ≠ k) :
    m.getIdx k = .ok none := by
  unfold HashMap.getIdx
  rw [if_neg hk]
  rw [show m.capacity = m.entries.length from rfl]
  have hempty : occCount m.entries < m.entries.length := by
    have h1 := hI.count_occ
    have h2 := hI.count_half
    have h3 := hI.cap2
    unfold HashMap.capacity at h2 h3
    omega
  rw [getLoop_absent_all habs hempty]

theorem get_of_hasB {m : HashMap} (hI : m.Inv) {k v : Nat}
    (h : hasB m.entries k v) : m.get k = .ok (some v) := by
  obtain ⟨hk, p, hp, hget⟩ := h
  unfold HashMap.get
  rw [getIdx_found hI hp (by rw [keyAt, hget]) hk]
  simp only [Except.map, Option.map]
  rw [hget]

theorem get_of_absent {m : HashMap} (hI : m.Inv) {k : Nat}
    (habs : ¬ hasK m.entries k) : m.get k = .ok none := by
  by_cases hk : k = NULL_KEY
  · subst hk
    exact get_null m
  · have habs' : ∀ i, i < m.entries.length → keyAt m.entries i ≠ k := by
      intro i hi hkey
      exact habs ⟨hk, i, hi, hkey⟩
    unfold HashMap.get
    rw [getIdx_absent hI hk habs']
    rfl

theorem get_total {m : HashMap} (hI : m.Inv) (k : Nat) :
    ∃ r, m.get k = .ok r := by
  by_cases h : hasK m.entries k
  · obtain ⟨v, hv⟩ := hasK_iff_hasB.mp h
    exact ⟨some v, get_of_hasB hI hv⟩
  · exact ⟨none, get_of_absent hI h⟩

/-! ### `set` characterised -/

theorem set_entry_apply {m₁ : HashMap} {k v : Nat} (hk : k ≠ NULL_KEY)
    (hdk : distinctKeys m₁.entries) (hpi : probeInv m₁.entries)
    (hocc : m₁.count = occCount m₁.entries)
    (hcap2 : 2 ≤ m₁.capacity)
    (hroomK : hasK m₁.entries k → m₁.count ≤ m₁.capacity / 2)
    (hroomI : ¬ hasK m₁.entries k → m₁.count + 1 ≤ m₁.capacity / 2) :
    ∃ es₂ ins, set_entry m₁.entries k v = .ok (es₂, ins) ∧
      HashMap.Inv ⟨es₂, if ins then m₁.count + 1 else m₁.count⟩ ∧
      es₂.length = m₁.capacity ∧
      (∀ kx vx, hasB es₂ kx vx ↔
        (kx = k ∧ vx = v) ∨ (kx ≠ k ∧ hasB m₁.entries kx vx)) ∧
      (ins = false ↔ hasK m₁.entries k) := by
  by_cases hKK : hasK m₁.entries k
  · -- overwrite in place
    obtain ⟨v₀, _, p, hp, hget⟩ := hasK_iff_hasB.mp hKK
    have hkey : keyAt m₁.entries p = k := by rw [keyAt, hget]
    refine ⟨m₁.entries.set p ⟨k, v⟩, false,
      set_entry_found hdk hpi hp hkey hk, ?_,
      by simp [HashMap.capacity],
      hasB_set_overwrite hdk hp hkey hk, by simp [hKK]⟩
    · have hkeys : ∀ i, i < m₁.entries.length →
          keyAt (m₁.entries.set p ⟨k, v⟩) i = keyAt m₁.entries i := by
        intro i hi
        by_cases e : i = p
        · subst e
          rw [keyAt_set_self hp, hkey]
        · exact keyAt_set_ne (Ne.symm e)
      have hlen : (m₁.entries.set p ⟨k, v⟩).length = m₁.entries.length := by simp
      have hocc2 : occCount (m₁.entries.set p ⟨k, v⟩) = occCount m₁.entries := by
        have h := occCount_set m₁.entries p hp ⟨k, v⟩
        rw [if_pos (by rw [hkey]; simpa using hk), if_pos (by simpa using hk)] at h
        omega
      exact {
        cap2 := by
          show 2 ≤ (m₁.entries.set p ⟨k, v⟩).length
          rw [hlen]
          exact hcap2
        count_occ := by
          show (if false = true then m₁.count + 1 else m₁.count) = _
          rw [if_neg (by simp)]
          rw [hocc, hocc2]
        count_half := by
          show (if false = true then m₁.count + 1 else m₁.count) ≤
            (m₁.entries.set p ⟨k, v⟩).length / 2
          rw [if_neg (by simp), hlen]
          exact hroomK hKK
        distinct := distinct_keys_eq hlen hkeys hdk
        probe := probeInv_keys_eq hlen hkeys hpi }
  · -- fresh insertion
    have habs : ∀ i, i < m₁.entries.length → keyAt m₁.entries i ≠ k := by
      intro i hi hkey
      exact hKK ⟨hk, i, hi, hkey⟩
    have hocclt : occCount m₁.entries < m₁.entries.length := by
      have h1 := hroomI hKK
      unfold HashMap.capacity at h1 hcap2
      omega
    obtain ⟨j, hj, hj0, hpath, hse⟩ := set_entry_insert habs hk hocclt
    have hlen : (m₁.entries.set j ⟨k, v⟩).length = m₁.entries.length := by simp
    have hocc2 : occCount (m₁.entries.set j ⟨k, v⟩) = occCount m₁.entries + 1 := by
      have h := occCount_set m₁.entries j hj ⟨k, v⟩
      rw [if_neg (by simpa using hj0), if_pos (by simpa using hk)] at h
      omega
    refine ⟨m₁.entries.set j ⟨k, v⟩, true, hse, ?_, hlen, ?_, by simp [hKK]⟩
    · exact {
        cap2 := by
          show 2 ≤ (m₁.entries.set j ⟨k, v⟩).length
          rw [hlen]
          exact hcap2
        count_occ := by
          show (if true = true then m₁.count + 1 else m₁.count) = _
          rw [if_pos rfl, hocc2, hocc]
        count_half := by
          show (if true = true then m₁.count + 1 else m₁.count) ≤
            (m₁.entries.set j ⟨k, v⟩).length / 2
          rw [if_pos rfl, hlen]
          exact hroomI hKK
        distinct := distinct_set_insert hdk hj hk habs
        probe := probe_set_insert hpi hj hj0 hk hpath }
    · intro kx vx
      rw [hasB_set_insert hj hj0 hk kx vx]
      constructor
      · rintro (⟨rfl, rfl⟩ | hb)
        · exact Or.inl ⟨rfl, rfl⟩
        · right
          refine ⟨?_, hb⟩
          rintro rfl
          exact hKK (hasK_iff_hasB.mpr ⟨vx, hb⟩)
      · rintro (⟨rfl, rfl⟩ | ⟨_, hb⟩)
        · exact Or.inl ⟨rfl, rfl⟩
        · exact Or.inr hb

theorem set_ok_inv {m m' : HashMap} {k v : Nat} (hI : m.Inv)
    (h : m.set k v = .ok m') :
    k ≠ NULL_KEY ∧ m'.Inv ∧
    (∀ kx vx, hasB m'.entries kx vx ↔
      (kx = k ∧ vx = v) ∨ (kx ≠ k ∧ hasB m.entries kx vx)) ∧
    (hasK m.entries k → m'.count = m.count) ∧
    (¬ hasK m.entries k → m'.count = m.count + 1) ∧
    (m.count < m.capacity / 2 → m'.capacity = m.capacity) ∧
    (m.capacity / 2 ≤ m.count → m'.capacity = 2 * m.capacity) := by
  have hk : k ≠ NULL_KEY := by
    rintro rfl
    unfold HashMap.set at h
    split at h
    · exact absurd h (by simp)
    · split at h
      · rename_i heqse
        rw [show set_entry _ NULL_KEY v = .error .nullKey from by
          unfold set_entry; rw [if_pos rfl]] at heqse
        exact absurd heqse (by simp)
      · exact absurd h (by simp)
  refine ⟨hk, ?_⟩
  unfold HashMap.set at h
  split at h
  · exact absurd h (by simp)
  · rename_i m₁ heq
    have hfacts : distinctKeys m₁.entries ∧ probeInv m₁.entries ∧
        m₁.count = m.count ∧ m₁.count = occCount m₁.entries ∧ 2 ≤ m₁.capacity ∧
        (∀ kx vx, hasB m₁.entries kx vx ↔ hasB m.entries kx vx) ∧
        ((m.count < m.capacity / 2 ∧ m₁.capacity = m.capacity) ∨
         (m.capacity / 2 ≤ m.count ∧ m₁.capacity = 2 * m.capacity)) := by
      split at heq
      · rename_i hge
        obtain ⟨hcap, hcnt, _, hdk, hpi, hocc, hbind⟩ :=
          expand_ok_inv hI.distinct hI.probe heq
        refine ⟨hdk, hpi, hcnt, ?_, ?_, hbind, Or.inr ⟨hge, hcap⟩⟩
        · rw [hcnt, hI.count_occ, hocc]
        · rw [hcap]
          have := hI.cap2
          omega
      · rename_i hge
        cases heq
        exact ⟨hI.distinct, hI.probe, rfl, hI.count_occ, hI.cap2,
          fun kx vx => Iff.rfl, Or.inl ⟨by omega, rfl⟩⟩
    obtain ⟨hdk₁, hpi₁, hcnt₁, hocc₁, hcap₁, hbind₁, hcapcase⟩ := hfacts
    have hKiff : hasK m₁.entries k ↔ hasK m.entries k := by
      rw [hasK_iff_hasB, hasK_iff_hasB]
      exact exists_congr (fun vx => hbind₁ k vx)
    have hroomK : hasK m₁.entries k → m₁.count ≤ m₁.capacity / 2 := by
      intro _
      rcases hcapcase with ⟨hlt, hcapeq⟩ | ⟨hge, hcapeq⟩
      · rw [hcnt₁, hcapeq]
        omega
      · rw [hcnt₁, hcapeq]
        have h1 := hI.count_half
        have h2 := hI.cap2
        omega
    have hroomI : ¬ hasK m₁.entries k → m₁.count + 1 ≤ m₁.capacity / 2 := by
      intro _
      rcases hcapcase with ⟨hlt, hcapeq⟩ | ⟨hge, hcapeq⟩
      · rw [hcnt₁, hcapeq]
        omega
      · rw [hcnt₁, hcapeq]
        have h1 := hI.count_half
        have h2 := hI.cap2
        omega
    obtain ⟨es₂, ins, hsee, hInv₂, hlen₂, hbind₂, hins⟩ :=
      set_entry_apply hk hdk₁ hpi₁ hocc₁ hcap₁ hroomK hroomI
    split at h
    · rename_i es₂x insx heqse
      rw [hsee] at heqse
      cases heqse
      cases h
      refine ⟨hInv₂, ?_, ?_, ?_, ?_, ?_⟩
      · intro kx vx
        rw [hbind₂ kx vx]
        constructor
        · rintro (hl | ⟨hne, hb⟩)
          · exact Or.inl hl
          · exact Or.inr ⟨hne, (hbind₁ kx vx).mp hb⟩
        · rintro (hl | ⟨hne, hb⟩)
          · exact Or.inl hl
          · exact Or.inr ⟨hne, (hbind₁ kx vx).mpr hb⟩
      · intro hKm
        have hinsf : ins = false := hins.mpr (hKiff.mpr hKm)
        show (if ins = true then m₁.count + 1 else m₁.count) = m.count
        rw [hinsf, if_neg (by simp), hcnt₁]
      · intro hKm
        have hinst : ins = true := by
          cases ins with
          | true => rfl
          | false => exact absurd (hKiff.mp (hins.mp rfl)) hKm
        show (if ins = true then m₁.count + 1 else m₁.count) = m.count + 1
        rw [hinst, if_pos rfl, hcnt₁]
      · intro hlt
        show es₂.length = m.capacity
        rw [hlen₂]
        rcases hcapcase with ⟨_, hcapeq⟩ | ⟨hge2, _⟩
        · exact hcapeq
        · omega
      · intro hge
        show es₂.length = 2 * m.capacity
        rw [hlen₂]
        rcases hcapcase with ⟨hlt2, _⟩ | ⟨_, hcapeq⟩
        · omega
        · exact hcapeq
    · rename_i err heqse
      rw [hsee] at heqse
      exact absurd heqse (by simp)

theorem set_total {m : HashMap} (hI : m.Inv) {k v : Nat} (hk : k ≠ NULL_KEY)
    (hcap : m.capacity * 2 < 2 ^ 64) : ∃ m', m.set k v = .ok m' := by
  by_cases hge : m.count ≥ m.capacity / 2
  · obtain ⟨m₁, hm₁⟩ := expand_total hI.distinct hI.probe hcap
    obtain ⟨hcapx, hcnt, _, hdk, hpi, hocc, hbind⟩ :=
      expand_ok_inv hI.distinct hI.probe hm₁
    have hstep : m.set k v = (match set_entry m₁.entries k v with
        | .ok (es, inserted) =>
            .ok ⟨es, if inserted then m₁.count + 1 else m₁.count⟩
        | .error err => .error err) := by
      unfold HashMap.set
      rw [if_pos hge, hm₁]
    obtain ⟨es₂, ins, hsee, _, _, _, _⟩ :=
      set_entry_apply (v := v) hk hdk hpi
        (by rw [hcnt, hI.count_occ, hocc])
        (by rw [hcapx]; have := hI.cap2; omega)
        (by intro _; rw [hcnt, hcapx]; have := hI.count_half; have := hI.cap2; omega)
        (by intro _; rw [hcnt, hcapx]; have := hI.count_half; have := hI.cap2; omega)
    refine ⟨⟨es₂, if ins then m₁.count + 1 else m₁.count⟩, ?_⟩
    rw [hstep, hsee]
  · have hstep : m.set k v = (match set_entry m.entries k v with
        | .ok (es, inserted) =>
            .ok ⟨es, if inserted then m.count + 1 else m.count⟩
        | .error err => .error err) := by
      unfold HashMap.set
      rw [if_neg hge]
    obtain ⟨es₂, ins, hsee, _, _, _, _⟩ :=
      set_entry_apply (v := v) hk hI.distinct hI.probe hI.count_occ hI.cap2
        (by intro _; exact hI.count_half)
        (by intro _; omega)
    refine ⟨⟨es₂, if ins then m.count + 1 else m.count⟩, ?_⟩
    rw [hstep, hsee]

/-! ### The `remove` scan loop characterised -/

theorem removeScan_stop {es : List Entry} {k j fuel : Nat} {del : Option Nat} {b : Nat}
    (hj : keyAt es j = NULL_KEY) (hf : 0 < fuel) :
    removeScan k fuel es j del b = some (del, b) := by
  obtain ⟨f, rfl⟩ : ∃ f, fuel = f + 1 := ⟨fuel - 1, by omega⟩
  simp only [removeScan, keyAt] at hj ⊢
  rw [if_pos hj]

theorem removeScan_walkA {es : List Entry} {k : Nat} :
    ∀ d idx fuel, idx < es.length → d < fuel →
      (∀ t, t < d → keyAt es ((idx + t) % es.length) ≠ NULL_KEY ∧
                    keyAt es ((idx + t) % es.length) ≠ k) →
      removeScan k fuel es idx none 0 =
        removeScan k (fuel - d) es ((idx + d) % es.length) none 0 := by
  intro d
  induction d with
  | zero =>
    intro idx fuel hidx _ _
    rw [Nat.add_zero, Nat.mod_eq_of_lt hidx, Nat.sub_zero]
  | succ d ih =>
    intro idx fuel hidx hf hcond
    obtain ⟨f, rfl⟩ : ∃ f, fuel = f + 1 := ⟨fuel - 1, by omega⟩
    have h0 := hcond 0 (by omega)
    rw [Nat.add_zero, Nat.mod_eq_of_lt hidx] at h0
    simp only [keyAt] at h0
    have step : removeScan k (f + 1) es idx none 0 =
        removeScan k f es (nextIndex es.length idx) none 0 := by
      simp only [removeScan]
      rw [if_neg h0.1, if_neg (fun hc => h0.2 hc.symm)]
      simp
    rw [step, nextIndex_eq hidx]
    have harith : ∀ t, ((idx + 1) % es.length + t) % es.length =
        (idx + (t + 1)) % es.length := by
      intro t
      rw [Nat.mod_add_mod]
      congr 1
      omega
    have := ih ((idx + 1) % es.length) f (Nat.mod_lt _ (by omega)) (by omega)
      (fun t ht => by rw [harith t]; exact hcond (t + 1) (by omega))
    rw [this, harith d]
    congr 1
    omega

theorem removeScan_walkB {es : List Entry} {k p : Nat} :
    ∀ d idx fuel b, idx < es.length → d < fuel →
      (∀ t, t < d → keyAt es ((idx + t) % es.length) ≠ NULL_KEY ∧
                    keyAt es ((idx + t) % es.length) ≠ k) →
      keyAt es ((idx + d) % es.length) = NULL_KEY →
      removeScan k fuel es idx (some p) b = some (some p, b + d) := by
  intro d
  induction d with
  | zero =>
    intro idx fuel b hidx hf hcond hstop
    rw [Nat.add_zero, Nat.mod_eq_of_lt hidx] at hstop
    rw [removeScan_stop hstop hf]
    rfl
  | succ d ih =>
    intro idx fuel b hidx hf hcond hstop
    obtain ⟨f, rfl⟩ : ∃ f, fuel = f + 1 := ⟨fuel - 1, by omega⟩
    have h0 := hcond 0 (by omega)
    rw [Nat.add_zero, Nat.mod_eq_of_lt hidx] at h0
    simp only [keyAt] at h0
    have step : removeScan k (f + 1) es idx (some p) b =
        removeScan k f es (nextIndex es.length idx) (some p) (b + 1) := by
      simp only [removeScan]
      rw [if_neg h0.1, if_neg (fun hc => h0.2 hc.symm)]
      simp
    rw [step, nextIndex_eq hidx]
    have harith : ∀ t, ((idx + 1) % es.length + t) % es.length =
        (idx + (t + 1)) % es.length := by
      intro t
      rw [Nat.mod_add_mod]
      congr 1
      omega
    have := ih ((idx + 1) % es.length) f (b + 1) (Nat.mod_lt _ (by omega)) (by omega)
      (fun t ht => by rw [harith t]; exact hcond (t + 1) (by omega))
      (by rw [harith d]; exact hstop)
    rw [this]
    congr 2
    omega

theorem removeScan_match {es : List Entry} {k j fuel : Nat}
    (hj : keyAt es j = k) (hk : k ≠ NULL_KEY) (hjn : j < es.length) :
    removeScan k (fuel + 1) es j none 0 =
      removeScan k fuel es (nextIndex es.length j) (some j) 1 := by
  simp only [removeScan, keyAt] at hj ⊢
  rw [if_neg (by rw [hj]; exact hk), if_pos hj.symm]
  simp

theorem removeScan_found {es : List Entry} {k p : Nat}
    (hdk : distinctKeys es) (hpi : probeInv es)
    (hp : p < es.length) (hkey : keyAt es p = k) (hk : k ≠ NULL_KEY)
    (hempty : occCount es < es.length) :
    ∃ blk, 0 < blk ∧ blk < es.length ∧
      keyAt es ((p + blk) % es.length) = NULL_KEY ∧
      (∀ u, 0 < u → u < blk → keyAt es ((p + u) % es.length) ≠ NULL_KEY) ∧
      removeScan k es.length es (homeIndex k es.length) none 0 =
        some (some p, blk) := by
  obtain ⟨j₀, hj₀, hjkey₀⟩ := exists_empty_slot hempty
  have hn : 0 < es.length := by omega
  have hhome : homeIndex k es.length < es.length := homeIndex_lt hn
  -- the first empty slot at offset dE from the home slot
  have hex : ∃ t, keyAt es ((homeIndex k es.length + t) % es.length) = NULL_KEY :=
    ⟨pdist es.length (homeIndex k es.length) j₀, by rw [slot_decomp hhome hj₀]; exact hjkey₀⟩
  set dE := Nat.find hex with hdE
  have hdElt : dE < es.length := by
    have h1 : dE ≤ pdist es.length (homeIndex k es.length) j₀ :=
      Nat.find_le (by rw [slot_decomp hhome hj₀]; exact hjkey₀)
    have h2 := pdist_lt (n := es.length) (a := homeIndex k es.length) (b := j₀) hn
    omega
  set dP := pdist es.length (homeIndex k es.length) p with hdP
  have hdPlt : dP < es.length := pdist_lt hn
  have hpslot : (homeIndex k es.length + dP) % es.length = p := slot_decomp hhome hp
  have hpi2 : ∀ t, t < dP → keyAt es ((homeIndex k es.length + t) % es.length) ≠ NULL_KEY := by
    have h := hpi p hp (by rw [hkey]; exact hk)
    rw [hkey] at h
    exact h
  have hPE : dP < dE := by
    rcases Nat.lt_trichotomy dP dE with h | h | h
    · exact h
    · exfalso
      have hspec := Nat.find_spec hex
      rw [← hdE, ← h, hpslot, hkey] at hspec
      exact hk hspec
    · exfalso
      exact hpi2 dE h (Nat.find_spec hex)
  have hnokey : ∀ u, u < es.length → u ≠ dP →
      keyAt es ((homeIndex k es.length + u) % es.length) ≠ k := by
    intro u hu hne heq
    have hs : (homeIndex k es.length + u) % es.length < es.length := Nat.mod_lt _ hn
    have hsp : (homeIndex k es.length + u) % es.length = p :=
      hdk _ hs _ hp (by rw [heq]; exact hk) (by rw [heq, hkey])
    have := pdist_add hhome hu
    rw [hsp] at this
    exact hne (by rw [hdP, ← this])
  refine ⟨dE - dP, by omega, by omega, ?_, ?_, ?_⟩
  · have harith : (p + (dE - dP)) % es.length =
        (homeIndex k es.length + dE) % es.length := by
      conv_lhs => rw [← hpslot]
      rw [Nat.mod_add_mod]
      congr 1
      omega
    rw [harith]
    exact Nat.find_spec hex
  · intro u hu0 hu
    have harith : (p + u) % es.length =
        (homeIndex k es.length + (dP + u)) % es.length := by
      conv_lhs => rw [← hpslot]
      rw [Nat.mod_add_mod]
      congr 1
      omega
    rw [harith]
    exact Nat.find_min hex (by omega)
  · have hwalkA := removeScan_walkA dP (homeIndex k es.length) es.length hhome
      (by omega) (fun t ht => ⟨hpi2 t ht, hnokey t (by omega) (by omega)⟩)
    rw [hwalkA, hpslot]
    obtain ⟨f, hf⟩ : ∃ f, es.length - dP = f + 1 := ⟨es.length - dP - 1, by omega⟩
    rw [hf, removeScan_match hkey hk hp, nextIndex_eq hp]
    have harith : ∀ t, ((p + 1) % es.length + t) % es.length =
        (homeIndex k es.length + (dP + 1 + t)) % es.length := by
      intro t
      rw [Nat.mod_add_mod]
      conv_lhs => rw [← hpslot]
      rw [Nat.add_assoc, Nat.mod_add_mod]
      congr 1
      omega
    have hwalkB := removeScan_walkB (p := p) (dE - dP - 1) ((p + 1) % es.length) f 1
      (Nat.mod_lt _ hn) (by omega)
      (fun t ht => by
        rw [harith t]
        exact ⟨Nat.find_min hex (by omega), hnokey (dP + 1 + t) (by omega) (by omega)⟩)
      (by rw [harith (dE - dP - 1), show dP + 1 + (dE - dP - 1) = dE from by omega]
          exact Nat.find_spec hex)
    rw [hwalkB]
    congr 2
    omega

theorem removeScan_absent {es : List Entry} {k : Nat}
    (habs : ∀ i, i < es.length → keyAt es i ≠ NULL_KEY → keyAt es i ≠ k)
    (hempty : occCount es < es.length) :
    removeScan k es.length es (homeIndex k es.length) none 0 = some (none, 0) := by
  obtain ⟨j₀, hj₀, hjkey₀⟩ := exists_empty_slot hempty
  have hn : 0 < es.length := by omega
  have hhome : homeIndex k es.length < es.length := homeIndex_lt hn
  have hex : ∃ t, keyAt es ((homeIndex k es.length + t) % es.length) = NULL_KEY :=
    ⟨pdist es.length (homeIndex k es.length) j₀, by rw [slot_decomp hhome hj₀]; exact hjkey₀⟩
  have hdlt : Nat.find hex < es.length := by
    have h1 : Nat.find hex ≤ pdist es.length (homeIndex k es.length) j₀ :=
      Nat.find_le (by rw [slot_decomp hhome hj₀]; exact hjkey₀)
    have h2 := pdist_lt (n := es.length) (a := homeIndex k es.length) (b := j₀) hn
    omega
  rw [removeScan_walkA (Nat.find hex) _ _ hhome hdlt (fun t ht =>
    ⟨Nat.find_min hex ht, habs _ (Nat.mod_lt _ hn) (Nat.find_min hex ht)⟩)]
  exact removeScan_stop (Nat.find_spec hex) (by omega)

/-! ### The invalidation loop characterised -/

theorem collectAndNull_spec :
    ∀ c (es : List Entry) j, j < es.length → c + 1 ≤ es.length →
      (∀ t, t < c → keyAt es ((j + t) % es.length) ≠ NULL_KEY) →
      (collectAndNull c es j).2.length = es.length ∧
      (collectAndNull c es j).1 =
        (List.range c).map (fun t => es.getD ((j + t) % es.length) nullEntry) ∧
      (∀ x, x < es.length →
        (collectAndNull c es j).2.getD x nullEntry =
          (if pdist es.length j x < c then nullEntry else es.getD x nullEntry)) ∧
      occCount es = occCount (collectAndNull c es j).2 + c := by
  intro c
  induction c with
  | zero =>
    intro es j hj _ _
    refine ⟨rfl, by simp [collectAndNull], ?_, by simp [collectAndNull]⟩
    intro x hx
    have h0 : ¬ pdist es.length j x < 0 := by omega
    simp [collectAndNull, h0]
  | succ c ih =>
    intro es j hj hc hocc
    have hn : 0 < es.length := by omega
    have hj0 : keyAt es j ≠ NULL_KEY := by
      have := hocc 0 (by omega)
      rwa [Nat.add_zero, Nat.mod_eq_of_lt hj] at this
    have hlen' : (es.set j nullEntry).length = es.length := by simp
    have hjnext : (j + 1) % es.length < es.length := Nat.mod_lt _ hn
    have harith : ∀ t, ((j + 1) % es.length + t) % es.length =
        (j + (t + 1)) % es.length := by
      intro t
      rw [Nat.mod_add_mod]
      congr 1
      omega
    have hposne : ∀ t, t < c → (j + (t + 1)) % es.length ≠ j := by
      intro t ht heq
      have h1 : t + 1 < es.length := by omega
      have h2 := pdist_add hj h1
      rw [heq, pdist_self (by omega)] at h2
      omega
    have ihc := ih (es.set j nullEntry) ((j + 1) % es.length)
      (by rw [hlen']; exact hjnext) (by rw [hlen']; omega)
      (by
        intro t ht
        rw [hlen', harith t, keyAt_set_ne (Ne.symm (hposne t ht))]
        exact hocc (t + 1) (by omega))
    obtain ⟨ih1, ih2, ih3, ih4⟩ := ihc
    rw [hlen'] at ih1
    simp only [hlen'] at ih2 ih3
    have hstep : collectAndNull (c + 1) es j =
        (es.getD j nullEntry ::
          (collectAndNull c (es.set j nullEntry) ((j + 1) % es.length)).1,
         (collectAndNull c (es.set j nullEntry) ((j + 1) % es.length)).2) := by
      conv_lhs => rw [collectAndNull]
      rw [nextIndex_eq hj]
    rw [hstep]
    refine ⟨ih1, ?_, ?_, ?_⟩
    · show es.getD j nullEntry ::
          (collectAndNull c (es.set j nullEntry) ((j + 1) % es.length)).1 = _
      rw [ih2]
      rw [List.range_succ_eq_map]
      simp only [List.map_cons, List.map_map]
      congr 1
      · rw [Nat.add_zero, Nat.mod_eq_of_lt hj]
      · apply List.map_congr_left
        intro t ht
        simp only [Function.comp, Nat.succ_eq_add_one]
        rw [harith t, getD_set_ne (Ne.symm (hposne t (List.mem_range.mp ht)))]
    · intro x hx
      show (collectAndNull c (es.set j nullEntry) ((j + 1) % es.length)).2.getD
          x nullEntry = _
      rw [ih3 x hx]
      by_cases hxj : x = j
      · subst hxj
        have h1 : pdist es.length ((x + 1) % es.length) x = es.length - 1 := by
          have h2 := pdist_add (a := (x + 1) % es.length)
            (Nat.mod_lt _ hn) (show es.length - 1 < es.length by omega)
          have h3 : ((x + 1) % es.length + (es.length - 1)) % es.length = x := by
            rw [Nat.mod_add_mod]
            have h4 : x + 1 + (es.length - 1) = x + es.length := by omega
            rw [h4, Nat.add_mod_right]
            exact Nat.mod_eq_of_lt hx
          rw [h3] at h2
          exact h2
        rw [h1]
        rw [if_neg (by omega), if_pos (by rw [pdist_self (by omega)]; omega)]
        exact getD_set_self hj
      · have h2 := pdist_next hj hx (Ne.symm hxj)
        by_cases hc1 : pdist es.length ((j + 1) % es.length) x < c
        · rw [if_pos hc1, if_pos (by omega)]
        · rw [if_neg hc1, if_neg (by omega)]
          exact getD_set_ne (Ne.symm hxj)
    · show occCount es =
        occCount (collectAndNull c (es.set j nullEntry) ((j + 1) % es.length)).2 + (c + 1)
      have h := occCount_set es j hj nullEntry
      rw [if_pos hj0, if_neg (show ¬ (nullEntry.key ≠ NULL_KEY) from by
        simp [nullEntry])] at h
      omega

/-! ### Probe invariant survives nulling a block up to an empty slot -/

theorem arc_geometry {n p blk h q t : Nat}
    (hp : p < n) (hq : q < n) (hh : h < n) (hblk0 : 0 < blk) (hblkn : blk < n)
    (ht : t < pdist n h q)
    (hin : pdist n p ((h + t) % n) < blk) :
    (∃ r, r < pdist n h q ∧ (h + r) % n = (p + blk) % n) ∨
    q = (p + blk) % n ∨
    pdist n p q < blk := by
  have hn : 0 < n := by omega
  have hs : (h + t) % n < n := Nat.mod_lt _ hn
  have hdqlt : pdist n h q < n := pdist_lt hn
  have hslot_s : (p + pdist n p ((h + t) % n)) % n = (h + t) % n :=
    slot_decomp hp hs
  have hslot_q : (h + pdist n h q) % n = q := slot_decomp hh hq
  have harc : ∀ w, (h + (t + w)) % n =
      (p + (pdist n p ((h + t) % n) + w)) % n := by
    intro w
    have e1 : (h + (t + w)) % n = ((h + t) % n + w) % n := by
      rw [Nat.mod_add_mod, Nat.add_assoc]
    have e3 : ((p + pdist n p ((h + t) % n)) % n + w) % n =
        (p + (pdist n p ((h + t) % n) + w)) % n := by
      rw [Nat.mod_add_mod, Nat.add_assoc]
    rw [e1, ← e3, hslot_s]
  generalize hU : pdist n p ((h + t) % n) = u at hin harc
  rcases Nat.lt_trichotomy (t + (blk - u)) (pdist n h q) with hcase | hcase | hcase
  · refine Or.inl ⟨t + (blk - u), hcase, ?_⟩
    rw [harc (blk - u)]
    congr 1
    omega
  · right
    left
    rw [← hslot_q]
    rw [show pdist n h q = t + (blk - u) from hcase.symm]
    rw [harc]
    congr 1
    omega
  · right
    right
    have h1 : (p + (u + (pdist n h q - t))) % n = q := by
      rw [← harc (pdist n h q - t)]
      rw [show t + (pdist n h q - t) = pdist n h q from by omega]
      exact hslot_q
    have h2 : u + (pdist n h q - t) < n := by omega
    have h3 := pdist_add hp h2
    rw [h1] at h3
    omega

theorem probe_arc_null {es es₁ : List Entry} {p blk : Nat}
    (hpi : probeInv es)
    (hlen : es₁.length = es.length) (hp : p < es.length) (hblk0 : 0 < blk)
    (hblkn : blk < es.length)
    (hE : keyAt es ((p + blk) % es.length) = NULL_KEY)
    (hpt : ∀ x, x < es.length → es₁.getD x nullEntry =
      (if pdist es.length p x < blk then nullEntry else es.getD x nullEntry)) :
    probeInv es₁ := by
  have hn : 0 < es.length := by omega
  have hkeys : ∀ x, x < es.length → keyAt es₁ x =
      (if pdist es.length p x < blk then NULL_KEY else keyAt es x) := by
    intro x hx
    unfold keyAt
    rw [hpt x hx]
    by_cases h : pdist es.length p x < blk
    · rw [if_pos h, if_pos h]
      rfl
    · rw [if_neg h, if_neg h]
  intro q hq hqocc t ht
  rw [hlen] at hq ht ⊢
  have hqkeys := hkeys q hq
  have hqout : ¬ pdist es.length p q < blk := by
    intro hin
    rw [hqkeys, if_pos hin] at hqocc
    exact hqocc rfl
  rw [hqkeys, if_neg hqout] at hqocc ht ⊢
  have hs : (homeIndex (keyAt es q) es.length + t) % es.length < es.length :=
    Nat.mod_lt _ hn
  have hold : keyAt es ((homeIndex (keyAt es q) es.length + t) % es.length) ≠
      NULL_KEY := hpi q hq hqocc t ht
  rw [hkeys _ hs]
  rw [if_neg ?_]
  · exact hold
  intro hin
  rcases arc_geometry hp hq (homeIndex_lt hn) hblk0 hblkn ht hin with
    ⟨r, hr, heq⟩ | hqe | hlt
  · have hocc_e := hpi q hq hqocc r hr
    rw [heq] at hocc_e
    exact hocc_e hE
  · rw [hqe] at hqocc
    exact hqocc hE
  · exact hqout hlt

theorem distinct_pt_null {es es₁ : List Entry}
    (hdk : distinctKeys es) (hlen : es₁.length = es.length)
    (hkor : ∀ x, x < es.length → keyAt es₁ x = keyAt es x ∨
      keyAt es₁ x = NULL_KEY) :
    distinctKeys es₁ := by
  intro i hi j hj h1 h2
  rw [hlen] at hi hj
  have hki : keyAt es₁ i = keyAt es i := by
    rcases hkor i hi with h | h
    · exact h
    · exact absurd h h1
  have hkj : keyAt es₁ j = keyAt es j := by
    rcases hkor j hj with h | h
    · exact h
    · rw [h] at h2
      rw [h2] at h1
      exact absurd rfl h1
  rw [hki] at h1 h2
  rw [hkj] at h2
  exact hdk i hi j hj h1 h2

/-! ### `remove` characterised -/

theorem remove_absent {m : HashMap} (hI : m.Inv) {k : Nat}
    (habs : ∀ i, i < m.entries.length → keyAt m.entries i ≠ NULL_KEY →
      keyAt m.entries i ≠ k) :
    m.remove k = .ok m := by
  have hempty : occCount m.entries < m.entries.length := by
    have h1 := hI.count_occ
    have h2 := hI.count_half
    have h3 := hI.cap2
    unfold HashMap.capacity at h2 h3
    omega
  unfold HashMap.remove
  rw [show HashMap.capacity m = m.entries.length from rfl,
    removeScan_absent habs hempty]

theorem remove_found {m : HashMap} (hI : m.Inv) {p k : Nat}
    (hp : p < m.entries.length) (hkey : keyAt m.entries p = k)
    (hk : k ≠ NULL_KEY) :
    ∃ m', m.remove k = .ok m' ∧ m'.Inv ∧
      m'.capacity = m.capacity ∧ m'.count + 1 = m.count ∧
      (∀ kx vx, hasB m'.entries kx vx ↔ (kx ≠ k ∧ hasB m.entries kx vx)) := by
  have hn : 0 < m.entries.length := by omega
  have hempty : occCount m.entries < m.entries.length := by
    have h1 := hI.count_occ
    have h2 := hI.count_half
    have h3 := hI.cap2
    unfold HashMap.capacity at h2 h3
    omega
  obtain ⟨blk, hblk0, hblkn, hE, harc, hscan⟩ :=
    removeScan_found hI.distinct hI.probe hp hkey hk hempty
  have hparith : ∀ t, ((p + 1) % m.entries.length + t) % m.entries.length =
      (p + (t + 1)) % m.entries.length := by
    intro t
    rw [Nat.mod_add_mod]
    congr 1
    omega
  -- the buffered entries and the nulled array, uniformly over `blk = 1` / `blk > 1`
  obtain ⟨buf, es₁, hstep, hlen₁, hpt₁, hbuf, hoccsum⟩ : ∃ buf es₁,
      (m.remove k = match reinsertAll es₁ buf with
        | .ok es₂ => .ok ⟨es₂, m.count - 1⟩
        | .error err => .error err) ∧
      es₁.length = m.entries.length ∧
      (∀ x, x < m.entries.length → es₁.getD x nullEntry =
        (if pdist m.entries.length p x < blk then nullEntry
         else m.entries.getD x nullEntry)) ∧
      buf = (List.range (blk - 1)).map
        (fun t => m.entries.getD ((p + (t + 1)) % m.entries.length) nullEntry) ∧
      occCount m.entries = occCount es₁ + blk := by
    by_cases hgt : blk > 1
    · have hjlt : (p + 1) % m.entries.length < m.entries.length := Nat.mod_lt _ hn
      obtain ⟨hc1, hc2, hc3, hc4⟩ := collectAndNull_spec (blk - 1) m.entries
        ((p + 1) % m.entries.length) hjlt (by omega)
        (by
          intro t ht
          rw [hparith t]
          exact harc (t + 1) (by omega) (by omega))
      refine ⟨(collectAndNull (blk - 1) m.entries ((p + 1) % m.entries.length)).1,
        (collectAndNull (blk - 1) m.entries ((p + 1) % m.entries.length)).2.set
          p nullEntry, ?_, by simpa using hc1, ?_, ?_, ?_⟩
      · unfold HashMap.remove
        rw [show HashMap.capacity m = m.entries.length from rfl, hscan]
        show (match reinsertAll
            ((if blk > 1 then
                collectAndNull (blk - 1) m.entries ((p + 1) % m.entries.length)
              else ([], m.entries)).2.set p nullEntry)
            ((if blk > 1 then
                collectAndNull (blk - 1) m.entries ((p + 1) % m.entries.length)
              else ([], m.entries)).1) with
          | Except.ok es₂ => (Except.ok ⟨es₂, m.count - 1⟩ : Except HMError HashMap)
          | Except.error err => Except.error err) = _
        rw [if_pos hgt]
      · intro x hx
        by_cases hxp : x = p
        · subst hxp
          rw [getD_set_self (by rw [hc1]; exact hx)]
          rw [if_pos (by rw [pdist_self (by omega)]; omega)]
        · rw [getD_set_ne (Ne.symm hxp), hc3 x hx]
          have h2 := pdist_next hp hx (Ne.symm hxp)
          by_cases hcc : pdist m.entries.length ((p + 1) % m.entries.length) x < blk - 1
          · rw [if_pos hcc, if_pos (by omega)]
          · rw [if_neg hcc, if_neg (by omega)]
      · rw [hc2]
        apply List.map_congr_left
        intro t _
        rw [hparith t]
      · have hpocc : keyAt (collectAndNull (blk - 1) m.entries
            ((p + 1) % m.entries.length)).2 p ≠ NULL_KEY := by
          unfold keyAt
          rw [hc3 p hp]
          rw [if_neg ?_]
          · rw [show (m.entries.getD p nullEntry).key = k from hkey]
            exact hk
          · have h1 : pdist m.entries.length ((p + 1) % m.entries.length) p =
                m.entries.length - 1 := by
              have h2 := pdist_add (a := (p + 1) % m.entries.length)
                (Nat.mod_lt _ hn) (show m.entries.length - 1 < m.entries.length by omega)
              have h3 : ((p + 1) % m.entries.length + (m.entries.length - 1)) %
                  m.entries.length = p := by
                rw [Nat.mod_add_mod]
                have h4 : p + 1 + (m.entries.length - 1) = p + m.entries.length := by
                  omega
                rw [h4, Nat.add_mod_right]
                exact Nat.mod_eq_of_lt hp
              rw [h3] at h2
              exact h2
            rw [h1]
            omega
        have h := occCount_set (collectAndNull (blk - 1) m.entries
          ((p + 1) % m.entries.length)).2 p (by rw [hc1]; exact hp) nullEntry
        rw [if_pos hpocc, if_neg (show ¬ (nullEntry.key ≠ NULL_KEY) from by
          simp [nullEntry])] at h
        omega
    · have hblk1 : blk = 1 := by omega
      refine ⟨[], m.entries.set p nullEntry, ?_, by simp, ?_, ?_, ?_⟩
      · unfold HashMap.remove
        rw [show HashMap.capacity m = m.entries.length from rfl, hscan]
        show (match reinsertAll
            ((if blk > 1 then
                collectAndNull (blk - 1) m.entries ((p + 1) % m.entries.length)
              else ([], m.entries)).2.set p nullEntry)
            ((if blk > 1 then
                collectAndNull (blk - 1) m.entries ((p + 1) % m.entries.length)
              else ([], m.entries)).1) with
          | Except.ok es₂ => (Except.ok ⟨es₂, m.count - 1⟩ : Except HMError HashMap)
          | Except.error err => Except.error err) = _
        rw [if_neg hgt]
      · intro x hx
        by_cases hxp : x = p
        · subst hxp
          rw [getD_set_self hx, if_pos (by rw [pdist_self (by omega)]; omega)]
        · rw [getD_set_ne (Ne.symm hxp)]
          rw [if_neg ?_]
          rw [hblk1]
          have h1 : pdist m.entries.length p x ≠ 0 := by
            intro h2
            exact hxp (pdist_eq_zero hp hx h2).symm
          omega
      · rw [hblk1]
        simp
      · have h := occCount_set m.entries p hp nullEntry
        rw [if_pos (by rw [show keyAt m.entries p = k from hkey]; simpa using hk),
          if_neg (show ¬ (nullEntry.key ≠ NULL_KEY) from by simp [nullEntry])] at h
        rw [hblk1]
        omega
  -- key facts about the nulled array
  have hkAt₁ : ∀ x, x < m.entries.length → keyAt es₁ x =
      (if pdist m.entries.length p x < blk then NULL_KEY
       else keyAt m.entries x) := by
    intro x hx
    unfold keyAt
    rw [hpt₁ x hx]
    by_cases h : pdist m.entries.length p x < blk
    · rw [if_pos h, if_pos h]
      rfl
    · rw [if_neg h, if_neg h]
  have hdk₁ : distinctKeys es₁ := by
    apply distinct_pt_null hI.distinct hlen₁
    intro x hx
    rw [hkAt₁ x hx]
    by_cases h : pdist m.entries.length p x < blk
    · rw [if_pos h]
      exact Or.inr rfl
    · rw [if_neg h]
      exact Or.inl rfl
  have hpi₁ : probeInv es₁ := probe_arc_null hI.probe hlen₁ hp hblk0 hblkn hE hpt₁
  have hbuflen : buf.length = blk - 1 := by
    rw [hbuf]
    simp
  have hbufget : ∀ t, t < blk - 1 →
      buf.getD t nullEntry =
        m.entries.getD ((p + (t + 1)) % m.entries.length) nullEntry := by
    intro t ht
    rw [hbuf]
    rw [List.getD_eq_getElem _ _ (by simpa using ht)]
    simp
  have harcpos : ∀ t, t < blk - 1 → (p + (t + 1)) % m.entries.length < m.entries.length :=
    fun t _ => Nat.mod_lt _ hn
  have hposdist : ∀ t, t < blk - 1 →
      pdist m.entries.length p ((p + (t + 1)) % m.entries.length) = t + 1 := by
    intro t ht
    exact pdist_add hp (by omega)
  have hbk0 : ∀ e ∈ buf, e.key ≠ NULL_KEY := by
    intro e he
    rw [hbuf] at he
    obtain ⟨t, htr, rfl⟩ := List.mem_map.mp he
    have ht := List.mem_range.mp htr
    exact harc (t + 1) (by omega) (by omega)
  have hbpw : buf.Pairwise (fun a b => a.key ≠ b.key) := by
    rw [hbuf, List.pairwise_iff_getElem]
    intro i j hi hj hij
    simp only [List.getElem_map, List.getElem_range] at hi hj ⊢
    rw [List.length_map, List.length_range] at hi hj
    intro heq
    have hki : keyAt m.entries ((p + (i + 1)) % m.entries.length) =
        keyAt m.entries ((p + (j + 1)) % m.entries.length) := heq
    have hocci : keyAt m.entries ((p + (i + 1)) % m.entries.length) ≠ NULL_KEY :=
      harc (i + 1) (by omega) (by omega)
    have := hI.distinct _ (harcpos i hi) _ (harcpos j hj) hocci hki
    have hdi := hposdist i hi
    have hdj := hposdist j hj
    rw [this] at hdi
    omega
  have habs₁ : ∀ e ∈ buf, ∀ i, i < es₁.length → keyAt es₁ i ≠ e.key := by
    intro e he i hi
    rw [hlen₁] at hi
    rw [hbuf] at he
    obtain ⟨t, htr, rfl⟩ := List.mem_map.mp he
    have ht := List.mem_range.mp htr
    rw [hkAt₁ i hi]
    by_cases h : pdist m.entries.length p i < blk
    · rw [if_pos h]
      intro hc
      exact harc (t + 1) (by omega) (by omega) hc.symm
    · rw [if_neg h]
      intro hc
      have heq := hI.distinct i hi _ (harcpos t ht)
        (by rw [hc]; exact harc (t + 1) (by omega) (by omega)) hc
      rw [heq] at h
      rw [hposdist t ht] at h
      omega
  have hroom₁ : occCount es₁ + buf.length ≤ es₁.length := by
    rw [hbuflen, hlen₁]
    have h1 := occCount_le_length m.entries
    omega
  obtain ⟨es₂, heq₂, hlen₂, hdk₂, hpi₂, hocc₂, hbind₂⟩ :=
    reinsertAll_spec buf es₁ hdk₁ hpi₁ hbk0 hbpw habs₁ hroom₁
  have hcount1 : 1 ≤ m.count := by
    rw [hI.count_occ]
    omega
  refine ⟨⟨es₂, m.count - 1⟩, ?_, ?_, ?_, by show m.count - 1 + 1 = m.count; omega, ?_⟩
  · rw [hstep, heq₂]
  · exact {
      cap2 := by
        show 2 ≤ es₂.length
        rw [hlen₂, hlen₁]
        have := hI.cap2
        unfold HashMap.capacity at this
        omega
      count_occ := by
        show m.count - 1 = occCount es₂
        rw [hocc₂, hbuflen]
        rw [hI.count_occ]
        omega
      count_half := by
        show m.count - 1 ≤ es₂.length / 2
        rw [hlen₂, hlen₁]
        have h1 := hI.count_half
        unfold HashMap.capacity at h1
        omega
      distinct := hdk₂
      probe := hpi₂ }
  · show es₂.length = m.capacity
    rw [hlen₂, hlen₁]
    rfl
  · intro kx vx
    show hasB es₂ kx vx ↔ _
    rw [hbind₂ kx vx]
    constructor
    · rintro (⟨hkx, i, hi, hget⟩ | hmem)
      · rw [hlen₁] at hi
        rw [hpt₁ i hi] at hget
        by_cases h : pdist m.entries.length p i < blk
        · rw [if_pos h] at hget
          exact absurd (congrArg Entry.key hget).symm (by simpa [nullEntry] using hkx)
        · rw [if_neg h] at hget
          refine ⟨?_, hkx, i, hi, hget⟩
          rintro rfl
          have heq := hI.distinct i hi p hp
            (by rw [keyAt, hget]; exact hkx) (by rw [keyAt, hget, hkey])
          rw [heq, pdist_self (by omega)] at h
          omega
      · rw [hbuf] at hmem
        obtain ⟨t, htr, hfe⟩ := List.mem_map.mp hmem
        have ht := List.mem_range.mp htr
        have hkx : kx ≠ NULL_KEY := by
          have := harc (t + 1) (by omega) (by omega)
          rw [keyAt, hfe] at this
          exact this
        refine ⟨?_, hkx, (p + (t + 1)) % m.entries.length, harcpos t ht, hfe⟩
        rintro rfl
        have heq := hI.distinct _ (harcpos t ht) p hp
          (by rw [keyAt, hfe]; exact hkx) (by rw [keyAt, hfe, hkey])
        have hd := hposdist t ht
        rw [heq, pdist_self (by omega)] at hd
        omega
    · rintro ⟨hne, hkx, i, hi, hget⟩
      by_cases h : pdist m.entries.length p i < blk
      · right
        rw [hbuf]
        have hip : i ≠ p := by
          rintro rfl
          rw [keyAt, hget] at hkey
          exact hne hkey
        have hd0 : 0 < pdist m.entries.length p i := pdist_pos hp hi (Ne.symm hip)
        apply List.mem_map.mpr
        refine ⟨pdist m.entries.length p i - 1, List.mem_range.mpr (by omega), ?_⟩
        have hslot : (p + (pdist m.entries.length p i - 1 + 1)) % m.entries.length = i := by
          rw [show pdist m.entries.length p i - 1 + 1 = pdist m.entries.length p i
            from by omega]
          exact slot_decomp hp hi
        rw [hslot]
        exact hget
      · left
        refine ⟨hkx, i, by rw [hlen₁]; exact hi, ?_⟩
        rw [hpt₁ i hi, if_neg h]
        exact hget

/-! ### `operator[]`, `clear`, reachability -/

theorem getIdx_ok_some_inv {m : HashMap} (hI : m.Inv) {k i : Nat}
    (h : m.getIdx k = .ok (some i)) :
    i < m.entries.length ∧ keyAt m.entries i = k ∧ k ≠ NULL_KEY := by
  by_cases hk : k = NULL_KEY
  · subst hk
    unfold HashMap.getIdx at h
    rw [if_pos rfl] at h
    exact absurd h (by simp)
  · by_cases hKK : hasK m.entries k
    · obtain ⟨_, p, hp, hkey⟩ := hKK
      rw [getIdx_found hI hp hkey hk] at h
      have hpi : p = i := by simpa using h
      subst hpi
      exact ⟨hp, hkey, hk⟩
    · have habs : ∀ j, j < m.entries.length → keyAt m.entries j ≠ k := by
        intro j hj hkey
        exact hKK ⟨hk, j, hj, hkey⟩
      rw [getIdx_absent hI hk habs] at h
      exact absurd h (by simp)

theorem getIdx_ok_none_inv {m : HashMap} (hI : m.Inv) {k : Nat}
    (h : m.getIdx k = .ok none) : ¬ hasK m.entries k := by
  intro hKK
  obtain ⟨hk, p, hp, hkey⟩ := hKK
  rw [getIdx_found hI hp hkey hk] at h
  simpa using h

theorem opIndex_ok_inv {m m' : HashMap} {k i : Nat} (hI : m.Inv)
    (h : m.opIndex k = .ok (m', i)) :
    m'.Inv ∧ i < m'.entries.length ∧ keyAt m'.entries i = k ∧ k ≠ NULL_KEY ∧
    (∀ kx vx, hasB m'.entries kx vx ↔
      ((kx = k ∧ vx = 0 ∧ ¬ hasK m.entries k) ∨ hasB m.entries kx vx)) ∧
    (hasK m.entries k → m'.count = m.count) ∧
    (¬ hasK m.entries k → m'.count = m.count + 1) := by
  unfold HashMap.opIndex at h
  split at h
  · exact absurd h (by simp)
  · rename_i i₀ hgi
    simp only [Except.ok.injEq, Prod.mk.injEq] at h
    obtain ⟨rfl, rfl⟩ := h
    obtain ⟨h1, h2, h3⟩ := getIdx_ok_some_inv hI hgi
    have hKK : hasK m.entries k := ⟨h3, i₀, h1, h2⟩
    refine ⟨hI, h1, h2, h3, ?_, fun _ => rfl, fun hc => absurd hKK hc⟩
    intro kx vx
    constructor
    · exact fun hb => Or.inr hb
    · rintro (⟨_, _, hno⟩ | hb)
      · exact absurd hKK hno
      · exact hb
  · rename_i hgi
    have hKK := getIdx_ok_none_inv hI hgi
    split at h
    · exact absurd h (by simp)
    · rename_i m₁ hset
      split at h
      · exact absurd h (by simp)
      · rename_i i₁ hgi₁
        simp only [Except.ok.injEq, Prod.mk.injEq] at h
        obtain ⟨rfl, rfl⟩ := h
        obtain ⟨hk, hI₁, hbind₁, _, hcnt₁, _, _⟩ := set_ok_inv hI hset
        obtain ⟨h1, h2, _⟩ := getIdx_ok_some_inv hI₁ hgi₁
        refine ⟨hI₁, h1, h2, hk, ?_, fun hc => absurd hc hKK, fun _ => hcnt₁ hKK⟩
        intro kx vx
        rw [hbind₁ kx vx]
        constructor
        · rintro (⟨rfl, rfl⟩ | ⟨_, hb⟩)
          · exact Or.inl ⟨rfl, rfl, hKK⟩
          · exact Or.inr hb
        · rintro (⟨rfl, rfl, _⟩ | hb)
          · exact Or.inl ⟨rfl, rfl⟩
          · right
            refine ⟨?_, hb⟩
            rintro rfl
            exact hKK (hasK_iff_hasB.mpr ⟨vx, hb⟩)
      · exact absurd h (by simp)

theorem indexAssign_ok_inv {m m' : HashMap} {k v : Nat} (hI : m.Inv)
    (h : m.indexAssign k v = .ok m') :
    m'.Inv ∧
    (∀ kx vx, hasB m'.entries kx vx ↔
      ((kx = k ∧ vx = v) ∨ (kx ≠ k ∧ hasB m.entries kx vx))) ∧
    (hasK m.entries k → m'.count = m.count) ∧
    (¬ hasK m.entries k → m'.count = m.count + 1) := by
  unfold HashMap.indexAssign at h
  split at h
  · exact absurd h (by simp)
  · rename_i r hop
    simp only [Except.ok.injEq] at h
    obtain ⟨hI₁, hi, hkeyi, hk, hbind₁, hcntK, hcntI⟩ := opIndex_ok_inv hI hop
    have hentry : (⟨(r.1.entries.getD r.2 nullEntry).key, v⟩ : Entry) = ⟨k, v⟩ := by
      rw [show (r.1.entries.getD r.2 nullEntry).key = k from hkeyi]
    rw [hentry] at h
    subst h
    have hkeys : ∀ x, x < r.1.entries.length →
        keyAt (r.1.entries.set r.2 ⟨k, v⟩) x = keyAt r.1.entries x := by
      intro x hx
      by_cases e : x = r.2
      · subst e
        rw [keyAt_set_self hi, hkeyi]
      · exact keyAt_set_ne (Ne.symm e)
    have hlen : (r.1.entries.set r.2 ⟨k, v⟩).length = r.1.entries.length := by simp
    have hocc2 : occCount (r.1.entries.set r.2 ⟨k, v⟩) = occCount r.1.entries := by
      have hx := occCount_set r.1.entries r.2 hi ⟨k, v⟩
      rw [if_pos (by rw [hkeyi]; simpa using hk), if_pos (by simpa using hk)] at hx
      omega
    refine ⟨?_, ?_, hcntK, hcntI⟩
    · exact {
        cap2 := by
          show 2 ≤ (r.1.entries.set r.2 ⟨k, v⟩).length
          rw [hlen]
          exact hI₁.cap2
        count_occ := by
          show r.1.count = _
          rw [hI₁.count_occ, hocc2]
        count_half := by
          show r.1.count ≤ (r.1.entries.set r.2 ⟨k, v⟩).length / 2
          rw [hlen]
          exact hI₁.count_half
        distinct := distinct_keys_eq hlen hkeys hI₁.distinct
        probe := probeInv_keys_eq hlen hkeys hI₁.probe }
    · intro kx vx
      show hasB (r.1.entries.set r.2 ⟨k, v⟩) kx vx ↔ _
      rw [hasB_set_overwrite hI₁.distinct hi hkeyi hk kx vx]
      constructor
      · rintro (hl | ⟨hne, hb⟩)
        · exact Or.inl hl
        · rcases (hbind₁ kx vx).mp hb with ⟨rfl, _, _⟩ | hb2
          · exact absurd rfl hne
          · exact Or.inr ⟨hne, hb2⟩
      · rintro (hl | ⟨hne, hb⟩)
        · exact Or.inl hl
        · exact Or.inr ⟨hne, (hbind₁ kx vx).mpr (Or.inr hb)⟩

theorem clear_inv {m : HashMap} (hI : m.Inv) : m.clear.Inv := by
  unfold HashMap.clear
  split
  · exact {
      cap2 := by
        show 2 ≤ (List.replicate m.capacity nullEntry).length
        simp only [List.length_replicate]
        exact hI.cap2
      count_occ := by
        show 0 = occCount (List.replicate m.capacity nullEntry)
        rw [occCount_replicate_null]
      count_half := by
        show 0 ≤ (List.replicate m.capacity nullEntry).length / 2
        exact Nat.zero_le _
      distinct := distinct_replicate_null
      probe := probe_replicate_null }
  · exact hI

theorem emptyMap_inv : HashMap.emptyMap.Inv := by
  exact {
    cap2 := by
      show 2 ≤ (List.replicate DEFAULT_CAPACITY nullEntry).length
      simp [DEFAULT_CAPACITY]
    count_occ := by
      show 0 = occCount (List.replicate DEFAULT_CAPACITY nullEntry)
      rw [occCount_replicate_null]
    count_half := by
      show 0 ≤ (List.replicate DEFAULT_CAPACITY nullEntry).length / 2
      exact Nat.zero_le _
    distinct := distinct_replicate_null
    probe := probe_replicate_null }

theorem remove_ok_inv {m m' : HashMap} {k : Nat} (hI : m.Inv)
    (h : m.remove k = .ok m') : m'.Inv := by
  by_cases hKK : hasK m.entries k
  · obtain ⟨hk, p, hp, hkey⟩ := hKK
    obtain ⟨m₂, heq, hI₂, _, _, _⟩ := remove_found hI hp hkey hk
    rw [heq] at h
    have hm : m₂ = m' := by simpa using h
    subst hm
    exact hI₂
  · have habs : ∀ i, i < m.entries.length → keyAt m.entries i ≠ NULL_KEY →
        keyAt m.entries i ≠ k := by
      intro i hi hocc hkey
      exact hKK ⟨by rw [← hkey]; exact hocc, i, hi, hkey⟩
    rw [remove_absent hI habs] at h
    have hm : m = m' := by simpa using h
    subst hm
    exact hI

theorem reachable_inv {m : HashMap} (h : m.Reachable) : m.Inv := by
  induction h with
  | empty => exact emptyMap_inv
  | set _ heq ih => exact (set_ok_inv ih heq).2.1
  | remove _ heq ih => exact remove_ok_inv ih heq
  | opIdx _ heq ih => exact (opIndex_ok_inv ih heq).1
  | idxAssign _ heq ih => exact (indexAssign_ok_inv ih heq).1
  | clear _ ih => exact clear_inv ih

/-! ### Totality on arbitrary states (needed for the null-key analysis) -/

theorem occCount_set_le {es : List Entry} {j : Nat} {e : Entry}
    (hj : j < es.length) :
    occCount (es.set j e) ≤ occCount es + 1 := by
  have h := occCount_set es j hj e
  by_cases h1 : keyAt es j = NULL_KEY <;> by_cases h2 : e.key = NULL_KEY <;>
    simp [h1, h2] at h <;> omega

theorem reinsertAll_total :
    ∀ (buf es : List Entry),
      (∀ e ∈ buf, e.key ≠ NULL_KEY) →
      occCount es + buf.length ≤ es.length →
      ∃ es₂, reinsertAll es buf = .ok es₂ := by
  intro buf
  induction buf with
  | nil => exact fun es _ _ => ⟨es, rfl⟩
  | cons e rest ih =>
    intro es hk0 hroom
    have hek : e.key ≠ NULL_KEY := hk0 e (List.mem_cons_self e rest)
    have hempty : occCount es < es.length := by
      simp only [List.length_cons] at hroom
      omega
    obtain ⟨j, ins, hj, hse⟩ := set_entry_total hek hempty
    have hroom' : occCount (es.set j ⟨e.key, e.value⟩) + rest.length ≤
        (es.set j ⟨e.key, e.value⟩).length := by
      have h1 := occCount_set_le (e := ⟨e.key, e.value⟩) hj
      simp only [List.length_set, List.length_cons] at hroom ⊢
      omega
    obtain ⟨es₂, heq⟩ := ih (es.set j ⟨e.key, e.value⟩)
      (fun x hx => hk0 x (List.mem_cons_of_mem e hx)) hroom'
    refine ⟨es₂, ?_⟩
    unfold reinsertAll
    rw [hse]
    exact heq

theorem expand_total_weak {m : HashMap} (hcap : m.capacity * 2 < 2 ^ 64) :
    ∃ m₁, m.expand = .ok m₁ := by
  unfold HashMap.expand
  have hmodeq : m.capacity * 2 % 2 ^ 64 = m.capacity * 2 := Nat.mod_eq_of_lt hcap
  rw [if_neg (by omega)]
  rw [expandReinsert_eq]
  obtain ⟨es₂, heq⟩ := reinsertAll_total
    (m.entries.filter (fun e => e.key ≠ NULL_KEY))
    (List.replicate (m.capacity * 2 % 2 ^ 64) nullEntry)
    (fun e he => by simpa using List.of_mem_filter he)
    (by
      rw [occCount_replicate_null, filter_length_occCount]
      have h1 := occCount_le_length m.entries
      simp only [List.length_replicate]
      rw [hmodeq]
      unfold HashMap.capacity
      omega)
  rw [heq]
  exact ⟨_, rfl⟩

theorem hasB_unique {es : List Entry} (hdk : distinctKeys es) {k v₁ v₂ : Nat}
    (h1 : hasB es k v₁) (h2 : hasB es k v₂) : v₁ = v₂ := by
  obtain ⟨hk, a, ha, hgeta⟩ := h1
  obtain ⟨_, b, hb, hgetb⟩ := h2
  have hab : a = b := hdk a ha b hb (by rw [keyAt, hgeta]; exact hk)
    (by rw [keyAt, hgeta, keyAt, hgetb])
  subst hab
  rw [hgeta] at hgetb
  exact (Entry.mk.inj hgetb).2

theorem get_ok_some_inv {m : HashMap} (hI : m.Inv) {k v : Nat}
    (h : m.get k = .ok (some v)) : hasB m.entries k v := by
  by_cases hKK : hasK m.entries k
  · obtain ⟨v₀, hb⟩ := hasK_iff_hasB.mp hKK
    rw [get_of_hasB hI hb] at h
    have : v₀ = v := by simpa using h
    subst this
    exact hb
  · rw [get_of_absent hI hKK] at h
    exact absurd h (by simp)

theorem get_ok_none_inv {m : HashMap} (hI : m.Inv) {k : Nat}
    (h : m.get k = .ok none) : ¬ hasK m.entries k := by
  intro hKK
  obtain ⟨v₀, hb⟩ := hasK_iff_hasB.mp hKK
  rw [get_of_hasB hI hb] at h
  simpa using h

theorem set_total_noexpand {m : HashMap} (hI : m.Inv) {k v : Nat}
    (hk : k ≠ NULL_KEY) (hlt : m.count < m.capacity / 2) :
    ∃ m', m.set k v = .ok m' := by
  have hstep : m.set k v = (match set_entry m.entries k v with
      | .ok (es, inserted) =>
          .ok ⟨es, if inserted then m.count + 1 else m.count⟩
      | .error err => .error err) := by
    unfold HashMap.set
    rw [if_neg (by omega)]
  obtain ⟨es₂, ins, hsee, _, _, _, _⟩ :=
    set_entry_apply (v := v) hk hI.distinct hI.probe hI.count_occ hI.cap2
      (by intro _; exact hI.count_half)
      (by intro _; omega)
  exact ⟨⟨es₂, if ins then m.count + 1 else m.count⟩, by rw [hstep, hsee]⟩

/-! ### `List.get?` helpers for the storage vector -/

theorem get?_lt {α : Type} {l : List α} {i : Nat} {x : α}
    (h : l.get? i = some x) : i < l.length := by
  by_contra hc
  rw [List.get?_eq_getElem?, List.getElem?_eq_none (by omega)] at h
  exact absurd h (by simp)

theorem get?_append_left {α : Type} {l l' : List α} {i : Nat}
    (h : i < l.length) : (l ++ l').get? i = l.get? i := by
  rw [List.get?_eq_getElem?, List.get?_eq_getElem?]
  exact List.getElem?_append_left h

theorem get?_concat_len {α : Type} (l : List α) (a : α) :
    (l ++ [a]).get? l.length = some a := by
  rw [List.get?_eq_getElem?]
  exact List.getElem?_concat_length l a

theorem getLast?_get? {α : Type} (l : List α) :
    l.getLast? = l.get? (l.length - 1) := by
  rw [List.get?_eq_getElem?]
  exact List.getLast?_eq_getElem? l

theorem get?_dropLast {α : Type} {l : List α} {i : Nat} (h : i < l.length - 1) :
    l.dropLast.get? i = l.get? i := by
  rw [List.get?_eq_getElem?, List.get?_eq_getElem?]
  rw [List.getElem?_eq_getElem (by simp; omega), List.getElem?_eq_getElem (by omega)]
  simp [List.getElem_dropLast]

theorem get?_set_self' {α : Type} {l : List α} {i : Nat} {a : α}
    (h : i < l.length) : (l.set i a).get? i = some a := by
  rw [List.get?_eq_getElem?]
  exact List.getElem?_set_eq_of_lt a h

theorem get?_set_ne' {α : Type} {l : List α} {i j : Nat} {a : α}
    (h : i ≠ j) : (l.set i a).get? j = l.get? j := by
  rw [List.get?_eq_getElem?, List.get?_eq_getElem?]
  exact List.getElem?_set_ne h

theorem get?_none_of_le {α : Type} {l : List α} {i : Nat}
    (h : l.length ≤ i) : l.get? i = none := by
  rw [List.get?_eq_getElem?]
  exact List.getElem?_eq_none h

/-! ### `Map` invariant preservation -/

theorem occCount_pos_of_occupied {es : List Entry} {s : Nat} (hs : s < es.length)
    (hocc : keyAt es s ≠ NULL_KEY) : 0 < occCount es := by
  rcases Nat.eq_zero_or_pos (occCount es) with hz | hpos
  · exfalso
    have hfil : es.filter (fun e => e.key ≠ NULL_KEY) = [] :=
      List.length_eq_zero.mp hz
    have hmem : es.getD s nullEntry ∈ es := by
      rw [List.getD_eq_getElem _ _ hs]
      exact List.getElem_mem hs
    have hmf : es.getD s nullEntry ∈ es.filter (fun e => e.key ≠ NULL_KEY) :=
      List.mem_filter.mpr ⟨hmem, by simpa [keyAt] using hocc⟩
    rw [hfil] at hmf
    simp at hmf
  · exact hpos

theorem mapInv_key_unique {α : Type} {m : Map α} (hI : m.Inv) {i j : Nat}
    {kvi kvj : Nat × α} (hi : m.storage.get? i = some kvi)
    (hj : m.storage.get? j = some kvj) (hkey : kvi.1 = kvj.1) : i = j := by
  have h1 := hI.to_hm i kvi hi
  have h2 := hI.to_hm j kvj hj
  exact hasB_unique hI.hm.distinct h1.2 (hkey ▸ h2.2)

theorem map_emptyMap_inv {α : Type} : (Map.emptyMap (α := α)).Inv := by
  refine ⟨emptyMap_inv, rfl, ?_, ?_⟩
  · intro k i hb
    exact absurd hb hasB_replicate_null
  · intro i kv hget
    simp [Map.emptyMap] at hget

theorem map_clear_inv {α : Type} {m : Map α} (hI : m.Inv) : m.clear.Inv := by
  refine ⟨clear_inv hI.hm, ?_, ?_, ?_⟩
  · show m.hash_map.clear.count = ([] : List (Nat × α)).length
    unfold HashMap.clear
    split
    · rfl
    · rename_i hc
      show m.hash_map.count = 0
      omega
  · intro k i hb
    exfalso
    show False
    have hb' : hasB m.hash_map.clear.entries k i := hb
    unfold HashMap.clear at hb'
    split at hb'
    · exact hasB_replicate_null hb'
    · rename_i hc
      have h0 : m.hash_map.count = 0 := by omega
      have := hI.hm.count_occ
      rw [h0] at this
      obtain ⟨hk, s, hs, hget⟩ := hb'
      have hocc : keyAt m.hash_map.entries s ≠ NULL_KEY := by
        rw [keyAt, hget]
        exact hk
      have := occCount_pos_of_occupied hs hocc
      omega
  · intro i kv hget
    show kv.1 ≠ NULL_KEY ∧ _
    exact absurd hget (by simp [Map.clear])

theorem map_set_ok_inv {α : Type} {m m' : Map α} {k : Nat} {v : α} (hI : m.Inv)
    (h : m.set k v = .ok m') :
    m'.Inv ∧ k ≠ NULL_KEY ∧
    ((∃ i kv, m.hash_map.get k = .ok (some i) ∧ m.storage.get? i = some kv ∧
        kv.1 = k ∧ m'.storage = m.storage.set i (kv.1, v) ∧
        m'.hash_map = m.hash_map) ∨
     (m.hash_map.get k = .ok none ∧ m'.storage = m.storage ++ [(k, v)] ∧
        m'.hash_map.count = m.hash_map.count + 1)) := by
  unfold Map.set at h
  split at h
  · exact absurd h (by simp)
  · -- key present: overwrite in the vector
    rename_i idx hg
    split at h
    · rename_i e hse
      simp only [Except.ok.injEq] at h
      subst h
      have hb := get_ok_some_inv hI.hm hg
      have hk : k ≠ NULL_KEY := hb.1
      obtain ⟨kv₀, hkv₀, hkv₀k⟩ := hI.to_storage k idx hb
      rw [hse] at hkv₀
      have he : e = kv₀ := by simpa using hkv₀
      subst he
      have hidxlt : idx < m.storage.length := get?_lt hse
      refine ⟨⟨hI.hm, ?_, ?_, ?_⟩, hk, Or.inl ⟨idx, e, hg, hse, hkv₀k, rfl, rfl⟩⟩
      · show m.hash_map.count = (m.storage.set idx (e.1, v)).length
        rw [List.length_set]
        exact hI.count_len
      · intro kx i hbx
        obtain ⟨kv, hkv, hkvk⟩ := hI.to_storage kx i hbx
        by_cases hie : i = idx
        · subst hie
          rw [hkv] at hse
          have hkve : kv = e := by simpa using hse
          subst hkve
          exact ⟨(kv.1, v), get?_set_self' hidxlt, hkvk⟩
        · exact ⟨kv, by rw [get?_set_ne' (Ne.symm hie)]; exact hkv, hkvk⟩
      · intro i kv hkv
        by_cases hie : i = idx
        · subst hie
          rw [get?_set_self' hidxlt] at hkv
          have : kv = (e.1, v) := by simpa using hkv.symm
          subst this
          refine ⟨by rw [hkv₀k]; exact hk, ?_⟩
          show hasB m.hash_map.entries e.1 i
          rw [hkv₀k]
          exact hb
        · rw [get?_set_ne' (Ne.symm hie)] at hkv
          exact hI.to_hm i kv hkv
    · exact absurd h (by simp)
  · -- key absent: append and register
    rename_i hg
    split at h
    · rename_i hm₁ hset
      simp only [Except.ok.injEq] at h
      subst h
      have habs := get_ok_none_inv hI.hm hg
      obtain ⟨hk, hI₁, hbind₁, _, hcnt₁, _, _⟩ :=
        set_ok_inv hI.hm (setE_ok_iff.mp hset)
      have hcnt := hcnt₁ habs
      refine ⟨⟨hI₁, ?_, ?_, ?_⟩, hk, Or.inr ⟨hg, rfl, hcnt⟩⟩
      · show hm₁.count = (m.storage ++ [(k, v)]).length
        rw [List.length_append, hcnt, hI.count_len]
        simp
      · intro kx i hbx
        rcases (hbind₁ kx i).mp hbx with ⟨rfl, rfl⟩ | ⟨hne, hold⟩
        · exact ⟨(kx, v), get?_concat_len m.storage (kx, v), rfl⟩
        · obtain ⟨kv, hkv, hkvk⟩ := hI.to_storage kx i hold
          exact ⟨kv, by rw [get?_append_left (get?_lt hkv)]; exact hkv, hkvk⟩
      · intro i kv hkv
        have hilt : i < m.storage.length + 1 := by
          have := get?_lt hkv
          simpa using this
        rcases Nat.lt_or_ge i m.storage.length with hi | hi
        · rw [get?_append_left hi] at hkv
          obtain ⟨hk0, hold⟩ := hI.to_hm i kv hkv
          refine ⟨hk0, (hbind₁ kv.1 i).mpr (Or.inr ⟨?_, hold⟩)⟩
          rintro rfl
          exact habs (hasK_iff_hasB.mpr ⟨i, hold⟩)
        · have hieq : i = m.storage.length := by omega
          subst hieq
          rw [get?_concat_len] at hkv
          have : kv = (k, v) := by simpa using hkv.symm
          subst this
          exact ⟨hk, (hbind₁ k m.storage.length).mpr (Or.inl ⟨rfl, rfl⟩)⟩
    · exact absurd h (by simp)

theorem map_opIndex_ok_inv {α : Type} [Inhabited α] {m m' : Map α} {k i : Nat}
    (hI : m.Inv) (h : m.opIndex k = .ok (m', i)) :
    m'.Inv ∧ k ≠ NULL_KEY ∧
    ((m' = m ∧ m.hash_map.get k = .ok (some i)) ∨
     (m.hash_map.get k = .ok none ∧ i = m.storage.length ∧
      m'.storage = m.storage ++ [(k, (default : α))] ∧
      m'.hash_map.count = m.hash_map.count + 1)) := by
  unfold Map.opIndex at h
  split at h
  · exact absurd h (by simp)
  · rename_i idx hg
    simp only [Except.ok.injEq, Prod.mk.injEq] at h
    obtain ⟨rfl, rfl⟩ := h
    have hb := get_ok_some_inv hI.hm hg
    exact ⟨hI, hb.1, Or.inl ⟨rfl, hg⟩⟩
  · rename_i hg
    split at h
    · rename_i hm₁ hset
      simp only [Except.ok.injEq, Prod.mk.injEq] at h
      obtain ⟨rfl, rfl⟩ := h
      have hmset : m.set k (default : α) = .ok ⟨hm₁, m.storage ++ [(k, default)]⟩ := by
        unfold Map.set
        rw [hg, hset]
      obtain ⟨hI', hk, _⟩ := map_set_ok_inv hI hmset
      have habs := get_ok_none_inv hI.hm hg
      obtain ⟨_, _, hbind₁, _, hcnt₁, _, _⟩ :=
        set_ok_inv hI.hm (setE_ok_iff.mp hset)
      exact ⟨hI', hk, Or.inr ⟨hg, rfl, rfl, hcnt₁ habs⟩⟩
    · exact absurd h (by simp)

theorem getD_eq_of_get? {α : Type} {l : List α} {i : Nat} {x d : α}
    (h : l.get? i = some x) : l.getD i d = x := by
  rw [List.get?_eq_getElem?] at h
  simp [List.getD, h]

theorem map_remove_found {α : Type} {m : Map α} (hI : m.Inv) {k i : Nat}
    (hg : m.hash_map.get k = .ok (some i)) :
    ∃ m' lastE, m.storage.getLast? = some lastE ∧ m.remove k = .ok m' ∧
      m'.Inv ∧
      m'.storage = (m.storage.set i lastE).dropLast ∧
      m'.hash_map.count + 1 = m.hash_map.count ∧
      (i < m'.storage.length → hasB m'.hash_map.entries lastE.1 i) := by
  have hb := get_ok_some_inv hI.hm hg
  have hk : k ≠ NULL_KEY := hb.1
  obtain ⟨kvI, hkvI, hkvIk⟩ := hI.to_storage k i hb
  have hilt : i < m.storage.length := get?_lt hkvI
  have hlen1 : 1 ≤ m.storage.length := by omega
  obtain ⟨lastE, hlastE⟩ : ∃ lastE, m.storage.get? (m.storage.length - 1) = some lastE := by
    match hsome : m.storage.get? (m.storage.length - 1) with
    | some l => exact ⟨l, rfl⟩
    | none =>
      rw [List.get?_eq_getElem?, List.getElem?_eq_none_iff] at hsome
      omega
  have hlast : m.storage.getLast? = some lastE := by
    rw [getLast?_get?]
    exact hlastE
  obtain ⟨hlk0, hlkB⟩ := hI.to_hm (m.storage.length - 1) lastE hlastE
  obtain ⟨hks, s, hs, hgets⟩ := hb
  obtain ⟨hm₁, hrm, hI₁, hcap₁, hcnt₁, hbind₁⟩ :=
    remove_found hI.hm hs (by rw [keyAt, hgets]) hk
  have hcount_len := hI.count_len
  have hlenst : ((m.storage.set i lastE).dropLast).length = m.storage.length - 1 := by
    rw [List.length_dropLast, List.length_set]
  have hget₁ : ∀ x, x < m.storage.length - 1 →
      ((m.storage.set i lastE).dropLast).get? x =
        (if x = i then some lastE else m.storage.get? x) := by
    intro x hx
    rw [get?_dropLast (by rw [List.length_set]; omega)]
    by_cases hxi : x = i
    · subst hxi
      rw [get?_set_self' hilt, if_pos rfl]
    · rw [get?_set_ne' (Ne.symm hxi), if_neg hxi]
  have hkey_ne : ∀ x kv, m.storage.get? x = some kv → x ≠ i → kv.1 ≠ k := by
    intro x kv hkv hxi hc
    exact hxi (mapInv_key_unique hI hkv hkvI (by rw [hc, hkvIk]))
  by_cases hii : i < m.storage.length - 1
  · -- a real move happens: retarget the moved key
    have hlne : lastE.1 ≠ k := hkey_ne _ _ hlastE (by omega)
    have hlkB₁ : hasB hm₁.entries lastE.1 (m.storage.length - 1) :=
      (hbind₁ lastE.1 (m.storage.length - 1)).mpr ⟨hlne, hlkB⟩
    have hcnt_lt : hm₁.count < hm₁.capacity / 2 := by
      have h1 := hI.hm.count_half
      rw [hcap₁]
      omega
    obtain ⟨hm₂, hset₂⟩ := set_total_noexpand hI₁ (k := lastE.1) (v := i) hlk0 hcnt_lt
    obtain ⟨_, hI₂, hbind₂, hcntK₂, _, _, _⟩ := set_ok_inv hI₁ hset₂
    have hKK₁ : hasK hm₁.entries lastE.1 := hasK_iff_hasB.mpr ⟨_, hlkB₁⟩
    have hcnt₂ := hcntK₂ hKK₁
    have hgetD : ((m.storage.set i lastE).dropLast).getD i lastE = lastE := by
      apply getD_eq_of_get?
      rw [hget₁ i hii, if_pos rfl]
    have hstep : m.remove k = .ok ⟨hm₂, (m.storage.set i lastE).dropLast⟩ := by
      unfold Map.remove
      rw [hg]
      show (match m.storage.getLast? with
        | none => (Except.error (HMError.badIndex, m) :
            Except (HMError × Map α) (Map α))
        | some lastE' =>
          match m.hash_map.remove k with
          | .error e => .error (e, m)
          | .ok hm₁' =>
            if i < ((m.storage.set i lastE').dropLast).length then
              match hm₁'.setE ((((m.storage.set i lastE').dropLast).getD i lastE').1)
                  i with
              | .ok hm₂' => .ok ⟨hm₂', (m.storage.set i lastE').dropLast⟩
              | .error (e, hm₂') =>
                  .error (e, ⟨hm₂', (m.storage.set i lastE').dropLast⟩)
            else
              .ok ⟨hm₁', (m.storage.set i lastE').dropLast⟩) = _
      rw [hlast, hrm]
      show (if i < ((m.storage.set i lastE).dropLast).length then
          match hm₁.setE ((((m.storage.set i lastE).dropLast).getD i lastE).1)
              i with
          | Except.ok hm₂' =>
              (Except.ok ⟨hm₂', (m.storage.set i lastE).dropLast⟩ :
                Except (HMError × Map α) (Map α))
          | Except.error (e, hm₂') =>
              Except.error (e, ⟨hm₂', (m.storage.set i lastE).dropLast⟩)
        else
          Except.ok ⟨hm₁, (m.storage.set i lastE).dropLast⟩) = _
      rw [if_pos (by rw [hlenst]; exact hii), hgetD, setE_ok_iff.mpr hset₂]
    refine ⟨⟨hm₂, (m.storage.set i lastE).dropLast⟩, lastE, hlast, hstep,
      ⟨hI₂, ?_, ?_, ?_⟩, rfl, ?_, ?_⟩
    · show hm₂.count = ((m.storage.set i lastE).dropLast).length
      rw [hcnt₂, hlenst]
      omega
    · intro kx ix hbx
      rcases (hbind₂ kx ix).mp hbx with ⟨hkxl, hixi⟩ | ⟨hnel, hbx₁⟩
      · subst hkxl
        refine ⟨lastE, ?_, rfl⟩
        rw [hixi, hget₁ i hii, if_pos rfl]
      · obtain ⟨hnek, hbx₀⟩ := (hbind₁ kx ix).mp hbx₁
        obtain ⟨kv, hkv, hkvk⟩ := hI.to_storage kx ix hbx₀
        have hxi : ix ≠ i := by
          intro hc
          subst hc
          rw [hkv] at hkvI
          have : kv = kvI := by simpa using hkvI
          subst this
          exact hnek (by rw [← hkvk, hkvIk])
        have hxlast : ix ≠ m.storage.length - 1 := by
          intro hc
          subst hc
          rw [hkv] at hlastE
          have : kv = lastE := by simpa using hlastE
          subst this
          exact hnel hkvk.symm
        have hxlt : ix < m.storage.length - 1 := by
          have := get?_lt hkv
          omega
        refine ⟨kv, ?_, hkvk⟩
        rw [hget₁ ix hxlt, if_neg hxi]
        exact hkv
    · intro x kv hkv
      have hxlt : x < m.storage.length - 1 := by
        have := get?_lt hkv
        rw [hlenst] at this
        omega
      rw [hget₁ x hxlt] at hkv
      by_cases hxi : x = i
      · subst hxi
        rw [if_pos rfl] at hkv
        have : kv = lastE := by simpa using hkv.symm
        subst this
        exact ⟨hlk0, (hbind₂ kv.1 x).mpr (Or.inl ⟨rfl, rfl⟩)⟩
      · rw [if_neg hxi] at hkv
        obtain ⟨hkv0, hkvB⟩ := hI.to_hm x kv hkv
        have hkvnek : kv.1 ≠ k := hkey_ne x kv hkv hxi
        have hkvnel : kv.1 ≠ lastE.1 := by
          intro hc
          exact (by omega : x ≠ m.storage.length - 1)
            (mapInv_key_unique hI hkv hlastE hc)
        exact ⟨hkv0, (hbind₂ kv.1 x).mpr
          (Or.inr ⟨hkvnel, (hbind₁ kv.1 x).mpr ⟨hkvnek, hkvB⟩⟩)⟩
    · show hm₂.count + 1 = m.hash_map.count
      rw [hcnt₂]
      exact hcnt₁
    · intro _
      exact (hbind₂ lastE.1 i).mpr (Or.inl ⟨rfl, rfl⟩)
  · -- the removed element is the last one: no move
    have hieq : i = m.storage.length - 1 := by omega
    have hstep : m.remove k = .ok ⟨hm₁, (m.storage.set i lastE).dropLast⟩ := by
      unfold Map.remove
      rw [hg]
      show (match m.storage.getLast? with
        | none => (Except.error (HMError.badIndex, m) :
            Except (HMError × Map α) (Map α))
        | some lastE' =>
          match m.hash_map.remove k with
          | .error e => .error (e, m)
          | .ok hm₁' =>
            if i < ((m.storage.set i lastE').dropLast).length then
              match hm₁'.setE ((((m.storage.set i lastE').dropLast).getD i lastE').1)
                  i with
              | .ok hm₂' => .ok ⟨hm₂', (m.storage.set i lastE').dropLast⟩
              | .error (e, hm₂') =>
                  .error (e, ⟨hm₂', (m.storage.set i lastE').dropLast⟩)
            else
              .ok ⟨hm₁', (m.storage.set i lastE').dropLast⟩) = _
      rw [hlast, hrm]
      show (if i < ((m.storage.set i lastE).dropLast).length then
          match hm₁.setE ((((m.storage.set i lastE).dropLast).getD i lastE).1)
              i with
          | Except.ok hm₂' =>
              (Except.ok ⟨hm₂', (m.storage.set i lastE).dropLast⟩ :
                Except (HMError × Map α) (Map α))
          | Except.error (e, hm₂') =>
              Except.error (e, ⟨hm₂', (m.storage.set i lastE).dropLast⟩)
        else
          Except.ok ⟨hm₁, (m.storage.set i lastE).dropLast⟩) = _
      rw [if_neg (by rw [hlenst]; exact hii)]
    refine ⟨⟨hm₁, (m.storage.set i lastE).dropLast⟩, lastE, hlast, hstep,
      ⟨hI₁, ?_, ?_, ?_⟩, rfl, hcnt₁, ?_⟩
    · show hm₁.count = ((m.storage.set i lastE).dropLast).length
      rw [hlenst]
      omega
    · intro kx ix hbx₁
      obtain ⟨hnek, hbx₀⟩ := (hbind₁ kx ix).mp hbx₁
      obtain ⟨kv, hkv, hkvk⟩ := hI.to_storage kx ix hbx₀
      have hxi : ix ≠ i := by
        intro hc
        subst hc
        rw [hkv] at hkvI
        have : kv = kvI := by simpa using hkvI
        subst this
        exact hnek (by rw [← hkvk, hkvIk])
      have hxlt : ix < m.storage.length - 1 := by
        have := get?_lt hkv
        omega
      refine ⟨kv, ?_, hkvk⟩
      rw [hget₁ ix hxlt, if_neg hxi]
      exact hkv
    · intro x kv hkv
      have hxlt : x < m.storage.length - 1 := by
        have := get?_lt hkv
        rw [hlenst] at this
        omega
      have hxi : x ≠ i := by omega
      rw [hget₁ x hxlt, if_neg hxi] at hkv
      obtain ⟨hkv0, hkvB⟩ := hI.to_hm x kv hkv
      have hkvnek : kv.1 ≠ k := hkey_ne x kv hkv hxi
      exact ⟨hkv0, (hbind₁ kv.1 x).mpr ⟨hkvnek, hkvB⟩⟩
    · intro hc
      rw [hlenst] at hc
      omega

theorem map_remove_absent {α : Type} {m : Map α} (hI : m.Inv) {k : Nat}
    (hg : m.hash_map.get k = .ok none) : m.remove k = .ok m := by
  unfold Map.remove
  rw [hg]

theorem map_remove_ok_inv {α : Type} {m m' : Map α} {k : Nat} (hI : m.Inv)
    (h : m.remove k = .ok m') : m'.Inv := by
  obtain ⟨r, hr⟩ := get_total hI.hm k
  match r, hr with
  | some i, hr =>
    obtain ⟨m₂, lastE, _, heq, hI₂, _, _, _⟩ := map_remove_found hI hr
    rw [heq] at h
    have : m₂ = m' := by simpa using h
    subst this
    exact hI₂
  | none, hr =>
    rw [map_remove_absent hI hr] at h
    have : m = m' := by simpa using h
    subst this
    exact hI

theorem map_set_total {α : Type} {m : Map α} (hI : m.Inv) {k : Nat} {v : α}
    (hk : k ≠ NULL_KEY) (hcap : m.hash_map.capacity * 2 < 2 ^ 64) :
    ∃ m', m.set k v = .ok m' := by
  obtain ⟨r, hr⟩ := get_total hI.hm k
  match r, hr with
  | some i, hr =>
    obtain ⟨kv, hkv, _⟩ := hI.to_storage k i (get_ok_some_inv hI.hm hr)
    refine ⟨⟨m.hash_map, m.storage.set i (kv.1, v)⟩, ?_⟩
    unfold Map.set
    rw [hr]
    show (match m.storage.get? i with
      | some e =>
          (Except.ok ⟨m.hash_map, m.storage.set i (e.1, v)⟩ :
            Except (HMError × Map α) (Map α))
      | none => Except.error (HMError.badIndex, m)) = _
    rw [hkv]
  | none, hr =>
    obtain ⟨hm₁, hset⟩ := set_total hI.hm hk hcap
    refine ⟨⟨hm₁, m.storage ++ [(k, v)]⟩, ?_⟩
    unfold Map.set
    rw [hr]
    show (match m.hash_map.setE k m.storage.length with
      | Except.ok hm =>
          (Except.ok ⟨hm, m.storage ++ [(k, v)]⟩ :
            Except (HMError × Map α) (Map α))
      | Except.error (err, hm₁) =>
          Except.error (err, ⟨hm₁, m.storage ++ [(k, v)]⟩)) = _
    rw [setE_ok_iff.mpr hset]

theorem map_reachable_inv {α : Type} {m : Map α} (h : m.Reachable) : m.Inv := by
  induction h with
  | empty => exact map_emptyMap_inv
  | set _ heq ih => exact (map_set_ok_inv ih heq).1
  | remove _ heq ih => exact map_remove_ok_inv ih heq
  | opIdx _ heq ih => exact (map_opIndex_ok_inv ih heq).1
  | clear _ ih => exact map_clear_inv ih

/-! ### Null-key rejection on arbitrary states -/

theorem set_entry_zero (es : List Entry) (v : Nat) :
    set_entry es NULL_KEY v = .error .nullKey := by
  unfold set_entry
  rw [if_pos rfl]

theorem hm_set_zero (m : HashMap) (v : Nat) :
    ∃ e, m.set NULL_KEY v = .error e := by
  unfold HashMap.set
  by_cases hge : m.count ≥ m.capacity / 2
  · rw [if_pos hge]
    match hx : m.expand with
    | .error e =>
      exact ⟨e, rfl⟩
    | .ok m₁ =>
      refine ⟨.nullKey, ?_⟩
      show (match set_entry m₁.entries NULL_KEY v with
        | .ok (es, inserted) =>
            (Except.ok ⟨es, if inserted then m₁.count + 1 else m₁.count⟩ :
              Except HMError HashMap)
        | .error err => .error err) = _
      rw [set_entry_zero]
  · rw [if_neg hge]
    refine ⟨.nullKey, ?_⟩
    show (match set_entry m.entries NULL_KEY v with
      | .ok (es, inserted) =>
          (Except.ok ⟨es, if inserted then m.count + 1 else m.count⟩ :
            Except HMError HashMap)
      | .error err => .error err) = _
    rw [set_entry_zero]

theorem hm_set_zero_nullKey {m : HashMap} (v : Nat)
    (hcap : m.capacity * 2 < 2 ^ 64) :
    m.set NULL_KEY v = .error .nullKey := by
  unfold HashMap.set
  by_cases hge : m.count ≥ m.capacity / 2
  · rw [if_pos hge]
    obtain ⟨m₁, hx⟩ := expand_total_weak hcap
    rw [hx]
    show (match (Except.ok m₁ : Except HMError HashMap) with
      | .error err => (Except.error err : Except HMError HashMap)
      | .ok m₂ =>
        match set_entry m₂.entries NULL_KEY v with
        | .ok (es, inserted) =>
            Except.ok ⟨es, if inserted then m₂.count + 1 else m₂.count⟩
        | .error err => .error err) = _
    show (match set_entry m₁.entries NULL_KEY v with
      | .ok (es, inserted) =>
          (Except.ok ⟨es, if inserted then m₁.count + 1 else m₁.count⟩ :
            Except HMError HashMap)
      | .error err => .error err) = _
    rw [set_entry_zero]
  · rw [if_neg hge]
    show (match set_entry m.entries NULL_KEY v with
      | .ok (es, inserted) =>
          (Except.ok ⟨es, if inserted then m.count + 1 else m.count⟩ :
            Except HMError HashMap)
      | .error err => .error err) = _
    rw [set_entry_zero]

theorem hm_setE_zero (m : HashMap) (v : Nat) :
    ∃ e h₁, m.setE NULL_KEY v = .error (e, h₁) := by
  unfold HashMap.setE
  by_cases hge : m.count ≥ m.capacity / 2
  · rw [if_pos hge]
    match hx : m.expand with
    | .error e => exact ⟨e, m, rfl⟩
    | .ok m₁ =>
      refine ⟨.nullKey, m₁, ?_⟩
      show (match set_entry m₁.entries NULL_KEY v with
        | .ok (es, inserted) =>
            (Except.ok ⟨es, if inserted then m₁.count + 1 else m₁.count⟩ :
              Except (HMError × HashMap) HashMap)
        | .error err => .error (err, m₁)) = _
      rw [set_entry_zero]
  · rw [if_neg hge]
    refine ⟨.nullKey, m, ?_⟩
    show (match set_entry m.entries NULL_KEY v with
      | .ok (es, inserted) =>
          (Except.ok ⟨es, if inserted then m.count + 1 else m.count⟩ :
            Except (HMError × HashMap) HashMap)
      | .error err => .error (err, m)) = _
    rw [set_entry_zero]

theorem map_set_zero {α : Type} (m : Map α) (v : α) :
    ∃ e, m.set NULL_KEY v = .error e := by
  obtain ⟨e, h₁, he⟩ := hm_setE_zero m.hash_map m.storage.length
  refine ⟨(e, ⟨h₁, m.storage ++ [(NULL_KEY, v)]⟩), ?_⟩
  unfold Map.set
  rw [get_null]
  show (match m.hash_map.setE NULL_KEY m.storage.length with
    | .ok hm => (Except.ok ⟨hm, m.storage ++ [(NULL_KEY, v)]⟩ :
        Except (HMError × Map α) (Map α))
    | .error (err, hm₁) =>
        .error (err, ⟨hm₁, m.storage ++ [(NULL_KEY, v)]⟩)) = _
  rw [he]

theorem push_ok {α : Type} {s s' : Storage α} {v : α} {id : Nat}
    (hc : s.id_counter < 2 ^ 64) (h : s.push v = .ok (s', id)) :
    id = s.id_counter + 1 ∧ s'.id_counter = s.id_counter + 1 ∧
      s.id_counter + 1 < 2 ^ 64 := by
  unfold Storage.push at h
  match hset : s.map.set ((s.id_counter + 1) % 2 ^ 64) v with
  | .error e =>
    rw [hset] at h
    exact absurd h (by simp)
  | .ok m' =>
    rw [hset] at h
    simp only [Except.ok.injEq, Prod.mk.injEq] at h
    obtain ⟨h1, h2⟩ := h
    have hne : (s.id_counter + 1) % 2 ^ 64 ≠ 0 := by
      intro hzero
      rw [hzero] at hset
      obtain ⟨e, he⟩ := map_set_zero s.map v
      rw [show NULL_KEY = 0 from rfl] at he
      rw [hset] at he
      exact absurd he (by simp)
    have hlt : s.id_counter + 1 < 2 ^ 64 := by
      rcases Nat.lt_or_ge (s.id_counter + 1) (2 ^ 64) with h | h
      · exact h
      · have : s.id_counter + 1 = 2 ^ 64 := by omega
        rw [this, Nat.mod_self] at hne
        exact absurd rfl hne
    rw [Nat.mod_eq_of_lt hlt] at h1 h2
    exact ⟨h2.symm, by rw [← h1], hlt⟩

theorem remove_counter {α : Type} {s s' : Storage α} {id : Nat}
    (h : s.remove id = .ok s') : s'.id_counter = s.id_counter := by
  unfold Storage.remove at h
  match hrm : s.map.remove id with
  | .error e =>
    rw [hrm] at h
    exact absurd h (by simp)
  | .ok m' =>
    rw [hrm] at h
    simp only [Except.ok.injEq] at h
    rw [← h]

theorem runOps_ids {α : Type} :
    ∀ (ops : List (SOp α)) (s s' : Storage α) (ids : List Nat),
      s.id_counter < 2 ^ 64 → Storage.runOps s ops = .ok (s', ids) →
      ids = List.range' (s.id_counter + 1) (pushCount ops) ∧
        s'.id_counter = s.id_counter + pushCount ops ∧
        s.id_counter + pushCount ops < 2 ^ 64 := by
  intro ops
  induction ops with
  | nil =>
    intro s s' ids hc h
    simp only [Storage.runOps, Except.ok.injEq, Prod.mk.injEq] at h
    obtain ⟨rfl, rfl⟩ := h
    exact ⟨rfl, by simp [pushCount], by simpa [pushCount] using hc⟩
  | cons op ops ih =>
    intro s s' ids hc h
    match op with
    | SOp.push v =>
      unfold Storage.runOps at h
      match hp : s.push v with
      | .error e =>
        rw [hp] at h
        exact absurd h (by simp)
      | .ok (s₁, id) =>
        simp only [hp] at h
        obtain ⟨hid, hc₁, hlt₁⟩ := push_ok hc hp
        match hr : Storage.runOps s₁ ops with
        | .error e =>
          rw [hr] at h
          exact absurd h (by simp)
        | .ok (s₂, ids₂) =>
          simp only [hr, Except.ok.injEq, Prod.mk.injEq] at h
          obtain ⟨rfl, rfl⟩ := h
          obtain ⟨hids₂, hcnt₂, hbound⟩ := ih s₁ s₂ ids₂ (by omega) hr
          rw [hc₁] at hcnt₂ hbound
          refine ⟨?_, ?_, ?_⟩
          · rw [hids₂, hid, hc₁]
            show _ = List.range' (s.id_counter + 1) (pushCount ops + 1)
            rw [List.range'_succ]
          · show s₂.id_counter = s.id_counter + (pushCount ops + 1)
            omega
          · show s.id_counter + (pushCount ops + 1) < 2 ^ 64
            omega
    | SOp.remove rid =>
      unfold Storage.runOps at h
      match hrm : s.remove rid with
      | .error e =>
        rw [hrm] at h
        exact absurd h (by simp)
      | .ok s₁ =>
        simp only [hrm] at h
        have hc₁ := remove_counter hrm
        obtain ⟨hids, hcnt, hbound⟩ := ih s₁ s' ids (by omega) h
        rw [hc₁] at hids hcnt hbound
        exact ⟨hids, hcnt, hbound⟩

theorem range'_pairwise_lt : ∀ (n s : Nat), (List.range' s n).Pairwise (· < ·) := by
  intro n
  induction n with
  | zero => intro s; exact List.Pairwise.nil
  | succ n ih =>
    intro s
    rw [List.range'_succ]
    refine List.Pairwise.cons ?_ (ih (s + 1))
    intro x hx
    have := (List.mem_range'_1).mp hx
    omega

theorem emptyMap_hasK {k : Nat} : ¬ hasK HashMap.emptyMap.entries k := by
  intro h
  obtain ⟨v, hb⟩ := hasK_iff_hasB.mp h
  exact hasB_replicate_null hb

theorem emptyMap_get (k : Nat) : HashMap.emptyMap.get k = .ok none :=
  get_of_absent emptyMap_inv emptyMap_hasK

theorem runSets_get_aux :
    ∀ (ops : List (Nat × Nat)) (m m' : HashMap), m.Inv →
      HashMap.runSets m ops = .ok m' → ∀ k, k ≠ NULL_KEY →
      m'.get k = (match lastSet ops k with
        | some v => .ok (some v)
        | none => m.get k) := by
  intro ops
  induction ops with
  | nil =>
    intro m m' hI h k hk
    simp only [HashMap.runSets, Except.ok.injEq] at h
    subst h
    rfl
  | cons p ops ih =>
    obtain ⟨k₀, v₀⟩ := p
    intro m m' hI h k hk
    unfold HashMap.runSets at h
    match hset : m.set k₀ v₀ with
    | .error e =>
      rw [hset] at h
      exact absurd h (by simp)
    | .ok m₁ =>
      simp only [hset] at h
      obtain ⟨hk₀, hI₁, hbind, _, _, _, _⟩ := set_ok_inv hI hset
      have hrec := ih m₁ m' hI₁ h k hk
      show m'.get k = (match (match lastSet ops k with
        | some w => some w
        | none => if k₀ = k then some v₀ else none) with
        | some v => Except.ok (some v)
        | none => m.get k)
      match hls : lastSet ops k with
      | some w =>
        rw [hls] at hrec
        exact hrec
      | none =>
        rw [hls] at hrec
        rw [hrec]
        by_cases hkk : k₀ = k
        · subst hkk
          rw [if_pos rfl]
          exact get_of_hasB hI₁ ((hbind k₀ v₀).mpr (Or.inl ⟨rfl, rfl⟩))
        · rw [if_neg hkk]
          by_cases hKK : hasK m.entries k
          · obtain ⟨v, hb⟩ := hasK_iff_hasB.mp hKK
            rw [get_of_hasB hI hb,
              get_of_hasB hI₁ ((hbind k v).mpr (Or.inr ⟨fun hc => hkk hc.symm, hb⟩))]
          · rw [get_of_absent hI hKK, get_of_absent hI₁ ?_]
            intro hKK₁
            obtain ⟨v, hb₁⟩ := hasK_iff_hasB.mp hKK₁
            rcases (hbind k v).mp hb₁ with ⟨hc, _⟩ | ⟨_, hb₀⟩
            · exact hkk hc.symm
            · exact hKK (hasK_iff_hasB.mpr ⟨v, hb₀⟩)

theorem runSets_ok_inv {ops : List (Nat × Nat)} :
    ∀ {m m' : HashMap}, m.Inv → HashMap.runSets m ops = .ok m' → m'.Inv := by
  induction ops with
  | nil =>
    intro m m' hI h
    simp only [HashMap.runSets, Except.ok.injEq] at h
    subst h
    exact hI
  | cons p ops ih =>
    obtain ⟨k₀, v₀⟩ := p
    intro m m' hI h
    unfold HashMap.runSets at h
    match hset : m.set k₀ v₀ with
    | .error e =>
      rw [hset] at h
      exact absurd h (by simp)
    | .ok m₁ =>
      simp only [hset] at h
      exact ih (set_ok_inv hI hset).2.1 h

/-! ### `Map` bindings versus storage keys -/

theorem mapInv_hasK_iff {α : Type} {m : Map α} (hI : m.Inv) (k : Nat) :
    hasK m.hash_map.entries k ↔
      ∃ i kv, m.storage.get? i = some kv ∧ kv.1 = k := by
  constructor
  · intro h
    obtain ⟨i, hb⟩ := hasK_iff_hasB.mp h
    obtain ⟨kv, hkv, hkvk⟩ := hI.to_storage k i hb
    exact ⟨i, kv, hkv, hkvk⟩
  · rintro ⟨i, kv, hkv, rfl⟩
    exact hasK_iff_hasB.mpr ⟨i, (hI.to_hm i kv hkv).2⟩

theorem map_get_absent {α : Type} {m : Map α} (hI : m.Inv) {k : Nat}
    (habs : ¬ hasK m.hash_map.entries k) : m.get k = .ok none := by
  unfold Map.get
  rw [get_of_absent hI.hm habs]

theorem map_get_present {α : Type} {m : Map α} (hI : m.Inv) {k i : Nat}
    (hb : hasB m.hash_map.entries k i) :
    ∃ kv, m.storage.get? i = some kv ∧ kv.1 = k ∧ m.get k = .ok (some kv.2) := by
  obtain ⟨kv, hkv, hk1⟩ := hI.to_storage k i hb
  refine ⟨kv, hkv, hk1, ?_⟩
  unfold Map.get
  rw [get_of_hasB hI.hm hb]
  show (match m.storage.get? i with
    | some e => (Except.ok (some e.2) : Except HMError (Option α))
    | none => .error .badIndex) = _
  rw [hkv]

theorem map_runSets_distinct {α : Type} :
    ∀ (ps : List (Nat × α)) (m m' : Map α), m.Inv →
      (∀ p ∈ ps, ¬ hasK m.hash_map.entries p.1) →
      (ps.map Prod.fst).Nodup →
      Map.runSets m ps = .ok m' →
      m'.Inv ∧ m'.storage = m.storage ++ ps := by
  intro ps
  induction ps with
  | nil =>
    intro m m' hI _ _ h
    simp only [Map.runSets, Except.ok.injEq] at h
    subst h
    exact ⟨hI, by simp⟩
  | cons p ps ih =>
    obtain ⟨k, v⟩ := p
    intro m m' hI habs hnd h
    unfold Map.runSets at h
    match hset : m.set k v with
    | .error e =>
      rw [hset] at h
      exact absurd h (by simp)
    | .ok m₁ =>
      simp only [hset] at h
      obtain ⟨hI₁, hk0, hdisj⟩ := map_set_ok_inv hI hset
      have hKK : ¬ hasK m.hash_map.entries k :=
        habs (k, v) (List.mem_cons_self _ _)
      rcases hdisj with ⟨i, kv, hgi, _, _, _, _⟩ | ⟨_, hst₁, _⟩
      · exact absurd (hasK_iff_hasB.mpr ⟨i, get_ok_some_inv hI.hm hgi⟩) hKK
      · rw [List.map_cons, List.nodup_cons] at hnd
        obtain ⟨hknotin, hnd'⟩ := hnd
        have habs' : ∀ q ∈ ps, ¬ hasK m₁.hash_map.entries q.1 := by
          intro q hq hKK₁
          obtain ⟨i, kv, hkv, hkvk⟩ := (mapInv_hasK_iff hI₁ q.1).mp hKK₁
          rw [hst₁] at hkv
          rcases Nat.lt_trichotomy i m.storage.length with hlt | heq | hgt
          · rw [get?_append_left hlt] at hkv
            exact habs q (List.mem_cons_of_mem _ hq)
              ((mapInv_hasK_iff hI q.1).mpr ⟨i, kv, hkv, hkvk⟩)
          · subst heq
            rw [get?_concat_len] at hkv
            have : kv = (k, v) := by simpa using hkv.symm
            subst this
            exact hknotin (hkvk ▸ List.mem_map_of_mem Prod.fst hq)
          · rw [get?_none_of_le (by simp; omega)] at hkv
            exact absurd hkv (by simp)
        obtain ⟨hI', hst'⟩ := ih m₁ m' hI₁ habs' hnd' h
        rw [hst₁] at hst'
        refine ⟨hI', ?_⟩
        rw [hst']
        simp

theorem hm_set_expand_err {m : HashMap} {k v : Nat} {e : HMError}
    (hge : m.count ≥ m.capacity / 2) (hx : m.expand = .error e) :
    m.set k v = .error e := by
  unfold HashMap.set
  rw [if_pos hge, hx]

/-! ### Reachability of the concrete states -/

theorem W1_reachable : W1.Reachable :=
  HashMap.Reachable.set HashMap.Reachable.empty
    (show HashMap.emptyMap.set 1 10 = .ok W1 from rfl)

theorem W2_reachable : W2.Reachable :=
  HashMap.Reachable.set W1_reachable (show W1.set 2 20 = .ok W2 from rfl)

theorem MW_reachable : MW.Reachable :=
  Map.Reachable.set
    (Map.Reachable.set Map.Reachable.empty
      (show Map.emptyMap.set 1 100 = .ok MW1 from rfl))
    (show MW1.set 2 200 = .ok MW from rfl)

theorem M8_reachable : M8.Reachable :=
  Map.Reachable.set
    (Map.Reachable.set
      (Map.Reachable.set Map.Reachable.empty
        (show Map.emptyMap.set 3 30 = .ok M8a from rfl))
      (show M8a.set 1 10 = .ok M8b from rfl))
    (show M8b.set 2 20 = .ok M8 from rfl)

theorem M8r_reachable : M8r.Reachable :=
  Map.Reachable.remove M8_reachable (show M8.remove 1 = .ok M8r from rfl)

theorem S9_reach : Map.Reachable (α := Nat) S9.map :=
  Map.Reachable.set Map.Reachable.empty
    (show Map.emptyMap.set 1 42 = .ok S9.map from rfl)

/-! ### The claims -/

/-- Claim C1: on every reachable `HashMap` state, removing a present key
deletes it (a subsequent `get` returns empty), decrements `count` by exactly
one, and every other present key remains retrievable with its unchanged
value. -/
theorem claim_C1 {m : HashMap} (hr : m.Reachable) {k v : Nat}
    (hkv : hasB m.entries k v) :
    ∃ m', m.remove k = .ok m' ∧ m'.get k = .ok none ∧
      m'.count + 1 = m.count ∧
      ∀ k' v', k' ≠ k → hasB m.entries k' v' → m'.get k' = .ok (some v') := by
  have hI := reachable_inv hr
  obtain ⟨hk, s, hs, hgets⟩ := hkv
  obtain ⟨m', hrm, hI', hcap, hcnt, hbind⟩ :=
    remove_found hI hs (by rw [keyAt, hgets]) hk
  refine ⟨m', hrm, ?_, hcnt, ?_⟩
  · apply get_of_absent hI'
    intro hKK
    obtain ⟨w, hb⟩ := hasK_iff_hasB.mp hKK
    exact ((hbind k w).mp hb).1 rfl
  · intro k' v' hne hb
    exact get_of_hasB hI' ((hbind k' v').mpr ⟨hne, hb⟩)

theorem claim_C1_witness :
    ∃ m', W2.remove 1 = .ok m' ∧ m'.get 1 = .ok none ∧
      m'.count + 1 = W2.count ∧
      ∀ k' v', k' ≠ 1 → hasB W2.entries k' v' → m'.get k' = .ok (some v') :=
  claim_C1 W2_reachable ⟨by decide, 0, by decide, by rfl⟩

/-- Claim C2: starting from a fresh table, after any successful sequence of
`set` operations (growth included), `get k` for `k ≠ 0` returns exactly the
last value set for `k`, and an empty result when `k` was never set. -/
theorem claim_C2 (ops : List (Nat × Nat)) (m' : HashMap)
    (h : HashMap.runSets HashMap.emptyMap ops = .ok m') (k : Nat)
    (hk : k ≠ NULL_KEY) : m'.get k = .ok (lastSet ops k) := by
  have haux := runSets_get_aux ops HashMap.emptyMap m' emptyMap_inv h k hk
  match hls : lastSet ops k with
  | some v =>
    simp only [hls] at haux
    exact haux
  | none =>
    simp only [hls] at haux
    rw [haux, emptyMap_get]

theorem claim_C2_witness : hmC2.get 1 = .ok (some 30) :=
  claim_C2 ops2 hmC2 (by rfl) 1 (by decide)

/-- Claim C3 (amended): in every `Map` state reachable through operations
that complete without throwing, the hash table's count equals the dense
vector's length and each binding's index points at an entry of the same key;
and removing a present key moves the last vector element into the freed slot
and re-registers its key at the new index.  The "every reachable state" of
the original claim is too strong: C++ `Map::set`/`operator[]` push into the
vector before the throwing hash-map registration, so the state left by a
caught `set(0, v)` has `length = count + 1` (`claim_C3_cex`). -/
theorem claim_C3 {α : Type} {m : Map α} (hr : m.Reachable) :
    m.hash_map.count = m.storage.length ∧
    (∀ k i, hasB m.hash_map.entries k i →
      ∃ kv, m.storage.get? i = some kv ∧ kv.1 = k) ∧
    (∀ k i, m.hash_map.get k = .ok (some i) →
      ∃ m' lastE, m.storage.getLast? = some lastE ∧ m.remove k = .ok m' ∧
        m'.storage = (m.storage.set i lastE).dropLast ∧
        m'.hash_map.count + 1 = m.hash_map.count ∧
        (i < m'.storage.length → hasB m'.hash_map.entries lastE.1 i)) := by
  have hI := map_reachable_inv hr
  refine ⟨hI.count_len, hI.to_storage, ?_⟩
  intro k i hg
  obtain ⟨m', lastE, hlast, hrm, _, hst, hcnt, hret⟩ := map_remove_found hI hg
  exact ⟨m', lastE, hlast, hrm, hst, hcnt, hret⟩

theorem claim_C3_witness :
    MW.hash_map.count = MW.storage.length ∧
    (∀ k i, hasB MW.hash_map.entries k i →
      ∃ kv, MW.storage.get? i = some kv ∧ kv.1 = k) ∧
    (∀ k i, MW.hash_map.get k = .ok (some i) →
      ∃ m' lastE, MW.storage.getLast? = some lastE ∧ MW.remove k = .ok m' ∧
        m'.storage = (MW.storage.set i lastE).dropLast ∧
        m'.hash_map.count + 1 = MW.hash_map.count ∧
        (i < m'.storage.length → hasB m'.hash_map.entries lastE.1 i)) :=
  claim_C3 MW_reachable

theorem claim_C3_cex :
    Map.emptyMap.set 0 7 = .error (HMError.nullKey, Mbad) ∧
    Mbad.hash_map.count ≠ Mbad.storage.length :=
  ⟨rfl, by decide⟩

/-- Claim C4 (amended): the 21-key scenario drives the capacity from 2 to 64
(five doublings, not four to 32 as claimed); every other assertion of the
scenario holds: all 21 keys retrievable with their values, `count() == 21`,
iteration yields 21 distinct keys, `remove(5)` leaves 20 with key 5 absent
and the rest intact, and `map[5] = 777` re-inserts key 5 bringing the count
back to 21. -/
theorem claim_C4 :
    HashMap.runSets HashMap.emptyMap pairs21 = .ok hm21 ∧
    hm21.capacity = 64 ∧ hm21.countM = 21 ∧
    (∀ p ∈ pairs21, hm21.get p.1 = .ok (some p.2)) ∧
    (hm21.toList.map Entry.key).Nodup ∧ hm21.toList.length = 21 ∧
    hm21.remove 5 = .ok hm20 ∧ hm20.countM = 20 ∧ hm20.get 5 = .ok none ∧
    (∀ p ∈ pairs21, p.1 ≠ 5 → hm20.get p.1 = .ok (some p.2)) ∧
    hm20.indexAssign 5 777 = .ok hm21b ∧ hm21b.countM = 21 ∧
    hm21b.get 5 = .ok (some 777) :=
  ⟨rfl, rfl, rfl, by decide, by decide, rfl, rfl, rfl, by decide, by decide,
    rfl, rfl, by decide⟩

theorem claim_C4_cex :
    HashMap.runSets HashMap.emptyMap pairs21 = .ok hm21 ∧
    hm21.capacity ≠ 32 :=
  ⟨rfl, by decide⟩

/-- Claim C5 (amended): overwriting a present key stores the new value and
leaves the count unchanged, but the capacity is only unchanged when
`count < capacity / 2`: the growth check runs before the probe, so an
overwrite at `count ≥ capacity / 2` still doubles the capacity. -/
theorem claim_C5 {m m' : HashMap} (hI : m.Inv) {k v w : Nat}
    (hkv : hasB m.entries k w) (hset : m.set k v = .ok m') :
    hasB m'.entries k v ∧ m'.count = m.count ∧
    (∀ k' v', k' ≠ k → (hasB m'.entries k' v' ↔ hasB m.entries k' v')) ∧
    (m.count < m.capacity / 2 → m'.capacity = m.capacity) ∧
    (m.capacity / 2 ≤ m.count → m'.capacity = 2 * m.capacity) := by
  obtain ⟨hk, hI', hbind, hcntK, _, hcapLt, hcapGe⟩ := set_ok_inv hI hset
  have hKK : hasK m.entries k := hasK_iff_hasB.mpr ⟨w, hkv⟩
  refine ⟨(hbind k v).mpr (Or.inl ⟨rfl, rfl⟩), hcntK hKK, ?_, hcapLt, hcapGe⟩
  intro k' v' hne
  constructor
  · intro hb
    rcases (hbind k' v').mp hb with ⟨hc, _⟩ | ⟨_, hb₀⟩
    · exact absurd hc hne
    · exact hb₀
  · intro hb
    exact (hbind k' v').mpr (Or.inr ⟨hne, hb⟩)

theorem claim_C5_witness :
    hasB M5b.entries 1 20 ∧ M5b.count = W1.count ∧
    (∀ k' v', k' ≠ 1 → (hasB M5b.entries k' v' ↔ hasB W1.entries k' v')) ∧
    (W1.count < W1.capacity / 2 → M5b.capacity = W1.capacity) ∧
    (W1.capacity / 2 ≤ W1.count → M5b.capacity = 2 * W1.capacity) :=
  claim_C5 (reachable_inv W1_reachable) ⟨by decide, 0, by decide, by rfl⟩
    (by rfl)

theorem claim_C5_cex :
    W1.get 1 = .ok (some 10) ∧ W1.set 1 20 = .ok M5b ∧
    W1.capacity = 2 ∧ M5b.capacity = 4 :=
  ⟨by decide, rfl, rfl, rfl⟩

/-- Claim C6 (amended): `set(0, v)` always fails, and fails with the
invalid-key error whenever the doubled capacity does not overflow `size_t`
(at `capacity ≥ 2 ^ 63` with the growth check triggered, the overflow error
preempts it); `get(0)` always returns empty. -/
theorem claim_C6 :
    (∀ (m : HashMap) (v : Nat), ∃ e, m.set NULL_KEY v = .error e) ∧
    (∀ (m : HashMap) (v : Nat), m.capacity * 2 < 2 ^ 64 →
      m.set NULL_KEY v = .error .nullKey) ∧
    ∀ m : HashMap, m.get NULL_KEY = .ok none :=
  ⟨hm_set_zero, fun _ v h => hm_set_zero_nullKey v h, get_null⟩

theorem claim_C6_witness :
    HashMap.emptyMap.set NULL_KEY 5 = .error HMError.nullKey :=
  claim_C6.2.1 HashMap.emptyMap 5 (by decide)

theorem claim_C6_cex :
    garbage63.set NULL_KEY 7 = .error HMError.overflow ∧
    HMError.overflow ≠ HMError.nullKey := by
  constructor
  · have hcap : garbage63.capacity = 2 ^ 63 := by
      show (List.replicate (2 ^ 63) (⟨1, 0⟩ : Entry)).length = 2 ^ 63
      exact List.length_replicate _ _
    have hcnt : garbage63.count = 2 ^ 62 := rfl
    have hx : garbage63.expand = .error .overflow := by
      show (if garbage63.capacity * 2 % 2 ^ 64 < garbage63.capacity then
          (Except.error HMError.overflow : Except HMError HashMap)
        else
          match expandReinsert
              (List.replicate (garbage63.capacity * 2 % 2 ^ 64) nullEntry)
              garbage63.entries with
          | .ok ne => .ok ⟨ne, garbage63.count⟩
          | .error err => .error err) = _
      rw [if_pos (by rw [hcap]; decide)]
    exact hm_set_expand_err (by rw [hcnt, hcap]; decide) hx
  · decide

/-- Claim C7: the ids returned by any successful operation sequence on a
fresh storage are exactly `1, 2, 3, ...` in order of the pushes: strictly
increasing, starting at 1, and never reused even after removals (the
counter is never decremented or recycled). -/
theorem claim_C7 {α : Type} (ops : List (SOp α)) (s' : Storage α)
    (ids : List Nat)
    (h : Storage.runOps Storage.emptyStorage ops = .ok (s', ids)) :
    ids = List.range' 1 (pushCount ops) ∧
    ids.Pairwise (· < ·) ∧ ids.Nodup ∧
    (0 < pushCount ops → ids.head? = some 1) := by
  have hlt : (Storage.emptyStorage : Storage α).id_counter < 2 ^ 64 := by
    show (0 : Nat) < 2 ^ 64
    decide
  obtain ⟨hids, _, _⟩ :=
    runOps_ids ops Storage.emptyStorage s' ids hlt h
  have h0 : (Storage.emptyStorage : Storage α).id_counter = 0 := rfl
  rw [h0, Nat.zero_add] at hids
  refine ⟨hids, ?_, ?_, ?_⟩
  · rw [hids]
    exact range'_pairwise_lt _ _
  · rw [hids]
    exact (range'_pairwise_lt _ _).imp Nat.ne_of_lt
  · intro hpos
    obtain ⟨n, hn⟩ : ∃ n, pushCount ops = n + 1 := ⟨pushCount ops - 1, by omega⟩
    rw [hids, hn, List.range'_succ]
    rfl

theorem claim_C7_witness :
    ids7 = List.range' 1 (pushCount ops7) ∧ ids7.Pairwise (· < ·) ∧
    ids7.Nodup ∧ (0 < pushCount ops7 → ids7.head? = some 1) :=
  claim_C7 ops7 S7 ids7 (by rfl)

/-- Claim C8: inserting distinct keys into a fresh `Map` makes iteration
yield exactly the inserted pairs in insertion order, and in every reachable
state (removals included) iteration yields exactly `count()` pairs. -/
theorem claim_C8 {α : Type} (ps : List (Nat × α)) (m' : Map α)
    (hnd : (ps.map Prod.fst).Nodup)
    (h : Map.runSets Map.emptyMap ps = .ok m')
    {mr : Map α} (hr : mr.Reachable) :
    m'.toList = ps ∧ mr.toList.length = mr.count := by
  constructor
  · have hd := map_runSets_distinct ps Map.emptyMap m' map_emptyMap_inv
      (fun p _ => emptyMap_hasK) hnd h
    show m'.storage = ps
    rw [hd.2]
    rfl
  · exact (map_reachable_inv hr).count_len.symm

theorem claim_C8_witness : M8.toList = ps8 ∧ M8r.toList.length = M8r.count :=
  claim_C8 ps8 M8 (by decide) (by rfl) M8r_reachable

/-- Claim C9: on a well-formed storage, indexing by an absent id — the
reserved null id 0 included — signals the hard no-such-id error instead of
creating an entry (`Storage::operator[]` only reads, so the state is
untouched), while a present id yields the stored value. -/
theorem claim_C9 {α : Type} {s : Storage α} (hI : s.map.Inv) :
    (∀ id, ¬ hasK s.map.hash_map.entries id →
      s.opIndex id = .error .noSuchId) ∧
    s.opIndex NULL_ID = .error .noSuchId ∧
    (∀ id i, hasB s.map.hash_map.entries id i →
      ∃ kv, s.map.storage.get? i = some kv ∧ kv.1 = id ∧
        s.opIndex id = .ok kv.2) := by
  have habs : ∀ id, ¬ hasK s.map.hash_map.entries id →
      s.opIndex id = .error .noSuchId := by
    intro id h
    unfold Storage.opIndex
    rw [map_get_absent hI h]
  refine ⟨habs, habs NULL_ID (fun h => h.1 rfl), ?_⟩
  intro id i hb
  obtain ⟨kv, hkv, hk1, hget⟩ := map_get_present hI hb
  refine ⟨kv, hkv, hk1, ?_⟩
  unfold Storage.opIndex
  rw [hget]

theorem claim_C9_witness :
    (∀ id, ¬ hasK S9.map.hash_map.entries id →
      S9.opIndex id = .error .noSuchId) ∧
    S9.opIndex NULL_ID = .error .noSuchId ∧
    (∀ id i, hasB S9.map.hash_map.entries id i →
      ∃ kv, S9.map.storage.get? i = some kv ∧ kv.1 = id ∧
        S9.opIndex id = .ok kv.2) :=
  claim_C9 (map_reachable_inv S9_reach)

/-- Claim C10: on every reachable `HashMap` state, removing an absent key
(the null key 0 included) is a silent no-op returning the state unchanged:
same count, same capacity, same entries. -/
theorem claim_C10 {m : HashMap} (hr : m.Reachable) {k : Nat}
    (habs : ¬ hasK m.entries k) : m.remove k = .ok m := by
  apply remove_absent (reachable_inv hr)
  intro i hi hocc hkey
  refine habs ⟨?_, i, hi, hkey⟩
  rw [← hkey]
  exact hocc

theorem claim_C10_witness : W2.remove 0 = .ok W2 :=
  claim_C10 W2_reachable (fun h => h.1 rfl)

end VrEngine
